import Mathlib

set_option maxHeartbeats 1000000
set_option maxRecDepth 8000

/-!
Shallow embedding of the access-control core of the arango-unix-proxy
repository (package `proxy`): the path matcher (`HasAPIPathPrefix`,
`IsCursorPath` over `cursorPathRegexp`), the AQL keyword inspection of
`AllowReadOnly`, the `AllowReadWrite` policy, and the body peeker plus
forwarding logic of `UnixReverseProxy.ServeHTTP`.

Modelling conventions:
* Go strings (paths, methods, bodies, error messages) are `List Char`.
  Request bodies are byte streams in Go; they are modelled as `List Char`
  as well, a byte being one `Char`.
* `filepath.Clean` (on Unix equal to `path.Clean`) is embedded as
  `pathClean`, split into segments processed against a stack, exactly the
  Plan-9 "lexical file names" rules the Go implementation follows.
* `strings.ToUpper` maps each rune through `unicode.ToUpper`; `toUpperChar`
  models the ASCII mapping plus the only two runes whose simple uppercase
  mapping lands in A-Z (U+0131 and U+017F), which is all the keyword
  detection can observe.
-/

/-- Character class `[a-zA-Z0-9_-]` used by the source both in
`cursorPathRegexp` and in the database-name validation loop of
`HasAPIPathPrefix`. -/
def isValidDbChar (c : Char) : Bool :=
  c.isUpper || c.isLower || c.isDigit || c == '_' || c == '-'

/-- Digit class `[0-9]` of `cursorPathRegexp`. -/
def isDigitChar (c : Char) : Bool :=
  c.isDigit

/-- Strip a literal prefix: `stripPre pre l = some r` iff `l = pre ++ r`.
Embeds Go's `strings.HasPrefix` plus the subsequent slicing `l[len(pre):]`. -/
def stripPre : List Char → List Char → Option (List Char)
  | [], l => some l
  | _ :: _, [] => none
  | p :: ps, c :: cs => if p == c then stripPre ps cs else none

/-- Substring test, embedding Go's `strings.Contains sub`: true iff `sub`
occurs contiguously inside `s`. -/
def containsSubstr (s sub : List Char) : Bool :=
  sub.isPrefixOf s ||
    match s with
    | [] => false
    | _ :: rest => containsSubstr rest sub

/-- Split on `'/'`, keeping empty pieces: the list of path chunks between
slashes ( `"a//b"` gives `["a", "", "b"]`, `""` gives `[""]`). -/
def splitSlash : List Char → List (List Char)
  | [] => [[]]
  | c :: rest =>
    match splitSlash rest with
    | s :: ss => if c == '/' then [] :: s :: ss else (c :: s) :: ss
    | [] => [[]]

/-- Nonempty path segments of a path, in order: what Go's `Clean` scanner
visits after collapsing repeated slashes. -/
def segsOf (l : List Char) : List (List Char) :=
  (splitSlash l).filter (fun s => !s.isEmpty)

/-- The one-dot segment. -/
def dotSeg : List Char :=
  ['.']

/-- The two-dot segment. -/
def dotdotSeg : List Char :=
  ['.', '.']

/-- Stack pass of Go's `path.Clean`: `.` segments are dropped, `..` pops a
previous segment (for a rooted path: or is dropped at the root; for an
unrooted path: or is kept when nothing non-`..` is left), other segments are
pushed. `acc` is the stack, most recent first; the result is in order. -/
def cleanStack (rooted : Bool) : List (List Char) → List (List Char) → List (List Char)
  | acc, [] => acc.reverse
  | acc, seg :: rest =>
    if seg = dotSeg then cleanStack rooted acc rest
    else if seg = dotdotSeg then
      match acc with
      | [] => if rooted then cleanStack rooted [] rest else cleanStack rooted [seg] rest
      | top :: acc' =>
        if rooted then cleanStack rooted acc' rest
        else if top = dotdotSeg then cleanStack rooted (seg :: top :: acc') rest
        else cleanStack rooted acc' rest
    else cleanStack rooted (seg :: acc) rest

/-- Join segments with `'/'`. -/
def joinSlash : List (List Char) → List Char
  | [] => []
  | [s] => s
  | s :: rest => s ++ '/' :: joinSlash rest

/-- Embedding of Go's `filepath.Clean` (Unix rules, as called by
`HasAPIPathPrefix`): empty input becomes `"."`, otherwise the segments are
normalized by `cleanStack` and rejoined, a rooted path keeping its leading
slash and an empty result becoming `"/"` or `"."`. -/
def pathClean (p : List Char) : List Char :=
  match p with
  | [] => ['.']
  | c :: _ =>
    let rooted := c == '/'
    let cleaned := cleanStack rooted [] (segsOf p)
    if rooted then
      if cleaned.isEmpty then ['/'] else '/' :: joinSlash cleaned
    else
      if cleaned.isEmpty then ['.'] else joinSlash cleaned

/-- Embedding of the source's `matchesAPIPath`: `path` starts with `apiPath`
and the match ends at a boundary (end of string, `'/'`, or `'?'`). -/
def matchesAPIPath (path apiPath : List Char) : Bool :=
  match stripPre apiPath path with
  | none => false
  | some [] => true
  | some (c :: _) => c == '/' || c == '?'

/-- Database-prefix branch of `HasAPIPathPrefix`: on a cleaned path starting
with `"/_db/"`, extract the database name up to the next slash (`slashIdx`
positive in the source means the name is nonempty and a slash exists),
validate its characters, and match the remainder against `apiPath`. -/
def dbPrefixMatch (cleanPath apiPath : List Char) : Bool :=
  match stripPre "/_db/".data cleanPath with
  | none => false
  | some rest =>
    let name := rest.takeWhile (fun c => !(c == '/'))
    let tail := rest.dropWhile (fun c => !(c == '/'))
    if name.isEmpty || tail.isEmpty then false
    else if name.all isValidDbChar then matchesAPIPath tail apiPath
    else false

/-- Embedding of the source's `HasAPIPathPrefix`: clean the path, restore a
leading slash if cleaning lost it, reject any raw input containing `".."`,
then try a direct boundary match and the database-prefixed match. -/
def hasAPIPathPrefix (fullPath apiPath : List Char) : Bool :=
  let cp := pathClean fullPath
  let cleanPath := if cp.head? = some '/' then cp else '/' :: cp
  if containsSubstr fullPath dotdotSeg then false
  else if matchesAPIPath cleanPath apiPath then true
  else dbPrefixMatch cleanPath apiPath

/-- Tail of `cursorPathRegexp` after the optional database prefix:
`"/_api/cursor"` optionally followed by `'/'` and one or more digits,
anchored at the end. -/
def cursorTail (l : List Char) : Bool :=
  match stripPre "/_api/cursor".data l with
  | none => false
  | some [] => true
  | some (c :: rest) => c == '/' && !rest.isEmpty && rest.all isDigitChar

/-- Embedding of the source's `IsCursorPath`, i.e. a full match of
`cursorPathRegexp = ^(/_db/[a-zA-Z0-9_-]+)?/_api/cursor(?:/[0-9]+)?$`.
The name class excludes `'/'`, and the regex requires a `'/'` right after
the name, so the greedy run of name characters is forced and the match is
deterministic. -/
def isCursorPath (p : List Char) : Bool :=
  match stripPre "/_db/".data p with
  | some rest =>
    let name := rest.takeWhile isValidDbChar
    let after := rest.dropWhile isValidDbChar
    !name.isEmpty && cursorTail after
  | none => cursorTail p


/-- Uppercase letter class `[A-Z]`: precisely the runes Go's
`strings.FieldsFunc(upper, func(r rune) bool { return r < 'A' || r > 'Z' })`
keeps inside a token. -/
def isAZ (c : Char) : Bool :=
  c.isUpper

/-- Per-rune model of Go's `strings.ToUpper` (simple `unicode.ToUpper` of
each rune), restricted to what the keyword scan can observe: the ASCII
mapping, plus U+0131 and U+017F, the only runes whose simple uppercase
mapping is an ASCII letter; every other rune maps outside `A`-`Z` and is
interchangeable with itself for both the tokenizer and the substring scan. -/
def toUpperChar (c : Char) : Char :=
  if c = 'ı' then 'I' else if c = 'ſ' then 'S' else c.toUpper

/-- Split on every character outside `A`-`Z`, keeping empty pieces. -/
def splitNonAZ : List Char → List (List Char)
  | [] => [[]]
  | c :: rest =>
    match splitNonAZ rest with
    | s :: ss => if isAZ c then (c :: s) :: ss else [] :: s :: ss
    | [] => [[]]

/-- Embedding of `strings.FieldsFunc` with the non-`[A-Z]` separator: the
maximal nonempty runs of uppercase letters, in order. -/
def fieldsAZ (l : List Char) : List (List Char) :=
  (splitNonAZ l).filter (fun s => !s.isEmpty)

/-- The source's `ForbiddenAQLKeywords` set / `forbiddenKeywordsList` slice
(same seven members, and the slice order is what the fallback scan uses). -/
def forbiddenAQLKeywords : List (List Char) :=
  ["INSERT".data, "UPDATE".data, "UPSERT".data, "REMOVE".data,
   "REPLACE".data, "TRUNCATE".data, "DROP".data]

/-- JSON values, as far as `encoding/json` syntax checking is concerned
(numbers carry no payload: the policy never reads one). -/
inductive Json where
  | null
  | boolean (b : Bool)
  | number
  | str (s : List Char)
  | arr (elems : List Json)
  | obj (members : List (List Char × Json))


/-- JSON whitespace accepted by `encoding/json`. -/
def isJsonWs (c : Char) : Bool :=
  c == ' ' || c == '\t' || c == '\n' || c == '\r'

/-- Skip JSON whitespace. -/
def skipWs (l : List Char) : List Char :=
  l.dropWhile isJsonWs

/-- Hex digit value. -/
def hexVal (c : Char) : Option Nat :=
  if '0' ≤ c ∧ c ≤ '9' then some (c.toNat - 48)
  else if 'a' ≤ c ∧ c ≤ 'f' then some (c.toNat - 87)
  else if 'A' ≤ c ∧ c ≤ 'F' then some (c.toNat - 70)
  else none

/-- Four hex digits of a `\u` escape. -/
def parseHex4 : List Char → Option (Nat × List Char)
  | a :: b :: c :: d :: rest =>
    match hexVal a, hexVal b, hexVal c, hexVal d with
    | some x, some y, some z, some w => some (((x * 16 + y) * 16 + z) * 16 + w, rest)
    | _, _, _, _ => none
  | _ => none

/-- Code point for a decoded `\u` escape: an unpaired surrogate becomes
U+FFFD exactly as `encoding/json` replaces it (no error). -/
def charOfCode (n : Nat) : Char :=
  if n < 0xd800 ∨ (0xe000 ≤ n ∧ n < 0x110000) then Char.ofNat n else '�'

/-- String body parser after the opening quote: standard JSON escapes,
`\u` escapes with surrogate pairs (lone surrogates become U+FFFD), control
characters rejected. Returns the decoded characters and the input after the
closing quote. Fuel decreases every step. -/
def parseStringBody : Nat → List Char → Option (List Char × List Char)
  | 0, _ => none
  | _ + 1, [] => none
  | fuel + 1, c :: rest =>
    if c = '"' then some ([], rest)
    else if c = '\\' then
      match rest with
      | [] => none
      | e :: rest' =>
        if e = 'u' then
          match parseHex4 rest' with
          | none => none
          | some (n, rest'') =>
            if 0xd800 ≤ n ∧ n < 0xdc00 then
              match rest'' with
              | '\\' :: 'u' :: rest''' =>
                match parseHex4 rest''' with
                | some (m, rest4) =>
                  if 0xdc00 ≤ m ∧ m < 0xe000 then
                    (parseStringBody fuel rest4).map
                      (fun (s, r) => (charOfCode (0x10000 + (n - 0xd800) * 0x400 + (m - 0xdc00)) :: s, r))
                  else (parseStringBody fuel rest'').map (fun (s, r) => ('�' :: s, r))
                | none => (parseStringBody fuel rest'').map (fun (s, r) => ('�' :: s, r))
              | _ => (parseStringBody fuel rest'').map (fun (s, r) => ('�' :: s, r))
            else (parseStringBody fuel rest'').map (fun (s, r) => (charOfCode n :: s, r))
        else
          match
            (if e = '"' then some '"' else if e = '\\' then some '\\'
             else if e = '/' then some '/' else if e = 'b' then some '\x08'
             else if e = 'f' then some '\x0c' else if e = 'n' then some '\n'
             else if e = 'r' then some '\r' else if e = 't' then some '\t' else none)
          with
          | some d => (parseStringBody fuel rest').map (fun (s, r) => (d :: s, r))
          | none => none
    else if c.toNat < 0x20 then none
    else (parseStringBody fuel rest).map (fun (s, r) => (c :: s, r))

/-- JSON number syntax: `-?(0|[1-9][0-9]*)(\.[0-9]+)?([eE][+-]?[0-9]+)?`.
Returns the remaining input on success. -/
def parseNumberTail (l : List Char) : Option (List Char) :=
  let afterMinus := match l with
    | '-' :: rest => rest
    | _ => l
  let intPart : Option (List Char) := match afterMinus with
    | [] => none
    | c :: rest =>
      if c = '0' then some rest
      else if c.isDigit then some (rest.dropWhile Char.isDigit)
      else none
  let fracPart : Option (List Char) := intPart.bind (fun afterInt =>
    match afterInt with
    | '.' :: c :: rest =>
      if c.isDigit then some (rest.dropWhile Char.isDigit) else none
    | '.' :: [] => none
    | _ => some afterInt)
  fracPart.bind (fun afterFrac =>
    match afterFrac with
    | e :: rest =>
      if e = 'e' ∨ e = 'E' then
        let rest' := match rest with
          | '+' :: r => r
          | '-' :: r => r
          | _ => rest
        match rest' with
        | c :: r => if c.isDigit then some (r.dropWhile Char.isDigit) else none
        | [] => none
      else some afterFrac
    | [] => some afterFrac)

mutual

/-- JSON value parser (syntax per `encoding/json`); fuel decreases on every
recursive call, and callers supply fuel exceeding the input length. -/
def parseValue : Nat → List Char → Option (Json × List Char)
  | 0, _ => none
  | fuel + 1, input =>
    match skipWs input with
    | 'n' :: 'u' :: 'l' :: 'l' :: rest => some (.null, rest)
    | 't' :: 'r' :: 'u' :: 'e' :: rest => some (.boolean true, rest)
    | 'f' :: 'a' :: 'l' :: 's' :: 'e' :: rest => some (.boolean false, rest)
    | '"' :: rest => (parseStringBody (rest.length + 1) rest).map (fun (s, r) => (.str s, r))
    | '[' :: rest => parseElems fuel rest []
    | '{' :: rest => parseMembers fuel rest []
    | c :: rest =>
      if c = '-' ∨ c.isDigit then
        (parseNumberTail (c :: rest)).map (fun r => (.number, r))
      else none
    | [] => none

/-- Array elements after `'['`; `acc` holds parsed elements in reverse. -/
def parseElems : Nat → List Char → List Json → Option (Json × List Char)
  | 0, _, _ => none
  | fuel + 1, input, acc =>
    match skipWs input, acc with
    | ']' :: rest, [] => some (.arr [], rest)
    | _, _ =>
      match parseValue fuel input with
      | none => none
      | some (v, rest) =>
        match skipWs rest with
        | ',' :: rest' => parseElems fuel rest' (v :: acc)
        | ']' :: rest' => some (.arr (v :: acc).reverse, rest')
        | _ => none

/-- Object members after `'{'`; `acc` holds parsed members in reverse. -/
def parseMembers : Nat → List Char → List (List Char × Json) → Option (Json × List Char)
  | 0, _, _ => none
  | fuel + 1, input, acc =>
    match skipWs input, acc with
    | '}' :: rest, [] => some (.obj [], rest)
    | '"' :: rest, _ =>
      match parseStringBody (rest.length + 1) rest with
      | none => none
      | some (key, rest') =>
        match skipWs rest' with
        | ':' :: rest'' =>
          match parseValue fuel rest'' with
          | none => none
          | some (v, rest3) =>
            match skipWs rest3 with
            | ',' :: rest4 => parseMembers fuel rest4 ((key, v) :: acc)
            | '}' :: rest4 => some (.obj ((key, v) :: acc).reverse, rest4)
            | _ => none
        | _ => none
    | _, _ => none

end

/-- ASCII lowercase of a char (for the case-insensitive JSON key match). -/
def lowerChar (c : Char) : Char :=
  c.toLower

/-- Whether a JSON object key selects the struct field tagged
`json:"query"`: `encoding/json` matches the tag exactly or case-insensitively
(`EqualFold`), which for the ASCII tag `query` is ASCII case insensitivity. -/
def keyIsQuery (k : List Char) : Bool :=
  k.map lowerChar = "query".data

/-- Fold of the decoded object members into the struct's `Query` field:
later duplicates overwrite, a JSON `null` leaves the previous value, a
non-string value is an unmarshal type error (overall failure). -/
def applyQueryMembers : List (List Char × Json) → List Char → Option (List Char)
  | [], acc => some acc
  | (k, v) :: rest, acc =>
    if keyIsQuery k then
      match v with
      | .str s => applyQueryMembers rest s
      | .null => applyQueryMembers rest acc
      | _ => none
    else applyQueryMembers rest acc

/-- Embedding of `json.Unmarshal(body, &payload)` for
`payload struct { Query string }`: `some q` is a nil error with
`payload.Query = q`, `none` is a non-nil error. The top level must be a
single JSON object (or `null`, a no-op) followed only by whitespace. -/
def unmarshalQuery (body : List Char) : Option (List Char) :=
  match parseValue (body.length + 1) body with
  | none => none
  | some (v, rest) =>
    if (skipWs rest).isEmpty then
      match v with
      | .null => some []
      | .obj members => applyQueryMembers members []
      | _ => none
    else none

/-- Error text built by `fmt.Errorf("forbidden keyword %q detected in AQL",
token)`; the token is all `A`-`Z`, so `%q` just adds double quotes. -/
def aqlKeywordMsg (kw : List Char) : List Char :=
  "forbidden keyword \"".data ++ kw ++ "\" detected in AQL".data

/-- Error text built by `fmt.Errorf("forbidden keyword %q detected in
request body", keyword)`. -/
def bodyKeywordMsg (kw : List Char) : List Char :=
  "forbidden keyword \"".data ++ kw ++ "\" detected in request body".data

/-- Keyword inspection done by `AllowReadOnly` on a peeked cursor body:
parse the body as `{query: string}`; with a nonempty query, uppercase it,
split into maximal `[A-Z]+` tokens and report the first forbidden token;
otherwise uppercase the raw body and report the first forbidden keyword
occurring as a substring. `none` means the body passes. -/
def checkCursorBody (body : List Char) : Option (List Char) :=
  match unmarshalQuery body with
  | some q =>
    if !q.isEmpty then
      let upper := q.map toUpperChar
      match (fieldsAZ upper).find? (fun t => forbiddenAQLKeywords.contains t) with
      | some t => some (aqlKeywordMsg t)
      | none => none
    else
      let upper := body.map toUpperChar
      match forbiddenAQLKeywords.find? (fun kw => containsSubstr upper kw) with
      | some kw => some (bodyKeywordMsg kw)
      | none => none
  | none =>
    let upper := body.map toUpperChar
    match forbiddenAQLKeywords.find? (fun kw => containsSubstr upper kw) with
    | some kw => some (bodyKeywordMsg kw)
    | none => none


/-- Result of one call to the request-body peeker: the Go `([]byte, error)`
pair with exactly one side set (`ok []` doubles for Go's `nil, nil`). -/
inductive PeekOutcome where
  | ok (data : List Char)
  | err (msg : List Char)
deriving DecidableEq

/-- Deny reason built by `fmt.Errorf("method %s not permitted on %s", ...)`. -/
def notPermittedMsg (method path : List Char) : List Char :=
  "method ".data ++ method ++ " not permitted on ".data ++ path

/-- Embedding of the source's `AllowReadOnly`, parametric in the peeker so
that the same definition serves both the pure policy claims and the
stateful `ServeHTTP` composition: `peek` receives the requested limit and a
caller state and yields an outcome plus the new state. The result's first
component is `nil` (allow) or the returned error's message (deny). -/
def allowReadOnly {σ : Type} (method path : List Char)
    (peek : Int → σ → PeekOutcome × σ) (st : σ) : Option (List Char) × σ :=
  if method = "GET".data ∨ method = "HEAD".data ∨ method = "OPTIONS".data then
    (none, st)
  else if method = "POST".data then
    if isCursorPath path then
      match peek (128 * 1024) st with
      | (.err msg, st') => (some msg, st')
      | (.ok body, st') =>
        match checkCursorBody body with
        | some reason => (some reason, st')
        | none => (none, st')
    else (some (notPermittedMsg method path), st)
  else if method = "DELETE".data then
    if isCursorPath path then (none, st)
    else (some (notPermittedMsg method path), st)
  else (some (notPermittedMsg method path), st)

/-- The source's `AllowedRWAPIPaths` slice. -/
def allowedRWAPIPaths : List (List Char) :=
  ["/_api/document".data, "/_api/collection".data, "/_api/index".data, "/_api/import".data]

/-- Mutating-method allow-list used inline by `AllowReadWrite` for `PUT`,
`PATCH` and `DELETE` (no `/_api/import`). -/
def mutateAPIPaths : List (List Char) :=
  ["/_api/document".data, "/_api/collection".data, "/_api/index".data]

/-- Embedding of the source's `AllowReadWrite`: first run `AllowReadOnly`
with the same peeker (threading its state); on its success allow, otherwise
additionally allow `POST` on cursor paths or the four-path allow-list, and
`PUT`/`PATCH`/`DELETE` on the three-path allow-list. -/
def allowReadWrite {σ : Type} (method path : List Char)
    (peek : Int → σ → PeekOutcome × σ) (st : σ) : Option (List Char) × σ :=
  match allowReadOnly method path peek st with
  | (none, st') => (none, st')
  | (some _, st') =>
    if method = "POST".data then
      if isCursorPath path then (none, st')
      else if allowedRWAPIPaths.any (fun api => hasAPIPathPrefix path api) then (none, st')
      else (some (notPermittedMsg method path), st')
    else if method = "PUT".data ∨ method = "PATCH".data ∨ method = "DELETE".data then
      if mutateAPIPaths.any (fun api => hasAPIPathPrefix path api) then (none, st')
      else (some (notPermittedMsg method path), st')
    else (some (notPermittedMsg method path), st')

/-- An HTTP request body as the handler sees it: `none` is a nil `r.Body`;
otherwise a stream that yields `bytes` and then either EOF (`readErr =
none`) or a read error carrying a message. -/
structure BodyStream where
  bytes : List Char
  readErr : Option (List Char)
deriving DecidableEq

/-- An inbound request, reduced to what the embedded core consumes. -/
structure Request where
  method : List Char
  path : List Char
  body : Option BodyStream
deriving DecidableEq

/-- The closure state of `ServeHTTP`'s `bodyReader` (`cachedBody` starts as
Go's nil slice, modelled `[]`). -/
structure PeekState where
  bodyConsumed : Bool
  cachedBody : List Char
deriving DecidableEq

/-- The source's `MaxBodyPeekSize` (16 MiB). -/
def maxBodyPeekSize : Int :=
  16 * 1024 * 1024

/-- Limit clamping done by `bodyReader`: nonpositive or above the ceiling
means the ceiling. -/
def effectiveLimit (limit : Int) : Int :=
  if limit ≤ 0 ∨ limit > maxBodyPeekSize then maxBodyPeekSize else limit

/-- Decimal digits of a natural number (fuel-driven; the fuel `n + 1`
always suffices). -/
def natDigits : Nat → Nat → List Char → List Char
  | 0, _, acc => acc
  | fuel + 1, n, acc =>
    if n < 10 then Char.ofNat (48 + n) :: acc
    else natDigits fuel (n / 10) (Char.ofNat (48 + n % 10) :: acc)

/-- Decimal rendering of a natural number, as `%d` prints it. -/
def natToDecimal (n : Nat) : List Char :=
  natDigits (n + 1) n []

/-- Error text of `fmt.Errorf("request body exceeds inspection limit (%d
bytes)", effectiveLimit)`. -/
def limitExceededMsg (el : Int) : List Char :=
  "request body exceeds inspection limit (".data ++ natToDecimal el.toNat ++ " bytes)".data

/-- One `buf.ReadFrom(io.LimitedReader{R: body, N: n})`: if at least `n`
bytes are available the reader stops at `n` without observing the stream's
end, otherwise it drains the stream and surfaces its terminal error. -/
def readFromLimited (s : BodyStream) (n : Nat) : List Char × Option (List Char) :=
  if n ≤ s.bytes.length then (s.bytes.take n, none) else (s.bytes, s.readErr)

/-- Embedding of the `bodyReader` closure in `ServeHTTP`: returns the cache
once consumed; a nil body caches empty; otherwise reads up to
`effectiveLimit + 1` bytes, failing on a read error or when the limit was
exceeded (`lr.N <= 0`, i.e. exactly `effectiveLimit + 1` bytes were read),
and caches the bytes on success. The consumed flag is set by `defer` on
every path past the nil-body check, errors included. -/
def bodyReaderStep (body : Option BodyStream) (limit : Int) (st : PeekState) :
    PeekOutcome × PeekState :=
  if st.bodyConsumed then (.ok st.cachedBody, st)
  else
    match body with
    | none => (.ok [], { bodyConsumed := true, cachedBody := [] })
    | some s =>
      let n := (effectiveLimit limit).toNat + 1
      match readFromLimited s n with
      | (_, some e) => (.err e, { bodyConsumed := true, cachedBody := [] })
      | (data, none) =>
        if data.length = n then
          (.err (limitExceededMsg (effectiveLimit limit)), { bodyConsumed := true, cachedBody := [] })
        else (.ok data, { bodyConsumed := true, cachedBody := data })

/-- What `ServeHTTP` does with a request, as observable at its boundary: a
403 rejection carrying the deny reason, or a forward to upstream carrying
either the cached snapshot (with `ContentLength` set to its byte length) or
the untouched original stream. -/
inductive Outcome where
  | rejected (status : Nat) (reason : List Char)
  | forwardedCached (body : List Char) (contentLength : Nat)
  | forwardedStream (body : Option BodyStream)
deriving DecidableEq

/-- Embedding of `UnixReverseProxy.ServeHTTP` around a policy: run the
policy with a fresh peeker state over the request's body; on error reply
403 with the error text; on allow forward the cached snapshot if the body
was consumed (setting the content length), else pass the stream through. -/
def serveWith
    (allow : List Char → List Char → (Int → PeekState → PeekOutcome × PeekState) →
      PeekState → Option (List Char) × PeekState)
    (req : Request) : Outcome :=
  let st0 : PeekState := { bodyConsumed := false, cachedBody := [] }
  match allow req.method req.path (fun lim st => bodyReaderStep req.body lim st) st0 with
  | (some reason, _) => .rejected 403 reason
  | (none, st1) =>
    if st1.bodyConsumed then .forwardedCached st1.cachedBody st1.cachedBody.length
    else .forwardedStream req.body

/-- The read-only proxy handler (`RunReadOnlyProxy` wires `AllowReadOnly`). -/
def serveReadOnly (req : Request) : Outcome :=
  serveWith allowReadOnly req

/-- The read-write proxy handler (`RunReadWriteProxy` wires `AllowReadWrite`). -/
def serveReadWrite (req : Request) : Outcome :=
  serveWith allowReadWrite req

/-- A peeker over a trivial state, for claims about the pure policy value. -/
def purePeek (out : PeekOutcome) : Int → Unit → PeekOutcome × Unit :=
  fun _ u => (out, u)


theorem stripPre_iff (pre : List Char) : ∀ (l r : List Char),
    stripPre pre l = some r ↔ l = pre ++ r := by
  induction pre with
  | nil =>
    intro l r
    simp [stripPre]
  | cons p ps ih =>
    intro l r
    cases l with
    | nil => simp [stripPre]
    | cons c cs =>
      by_cases h : p = c
      · subst h
        simp [stripPre, ih]
      · simp [stripPre, h, Ne.symm h]

theorem containsSubstr_iff (sub : List Char) : ∀ s : List Char,
    containsSubstr s sub = true ↔ sub <:+: s := by
  intro s
  induction s with
  | nil =>
    simp [containsSubstr, List.isPrefixOf_iff_prefix]
  | cons c rest ih =>
    rw [containsSubstr]
    simp [List.isPrefixOf_iff_prefix, ih, List.infix_cons_iff]

theorem prefix_cons_cons (c : Char) (a b : List Char) (h : a <+: b) : (c :: a) <+: (c :: b) := by
  obtain ⟨t, ht⟩ := h
  exact ⟨t, by simp [ht]⟩

theorem prefix_of_splitSlash_head : ∀ (l : List Char) (s : List Char) (ss : List (List Char)),
    splitSlash l = s :: ss → s <+: l := by
  intro l
  induction l with
  | nil =>
    intro s ss h
    simp [splitSlash] at h
    simp [h.1]
  | cons c rest ih =>
    intro s ss h
    rw [splitSlash] at h
    cases hs : splitSlash rest with
    | nil => rw [hs] at h; simp at h; simp [h.1]
    | cons s' ss' =>
      rw [hs] at h
      by_cases hc : c = '/'
      · simp [hc] at h
        simp [h.1]
      · simp [hc] at h
        exact h.1 ▸ prefix_cons_cons c s' rest (ih s' ss' hs)

theorem infix_of_infix_tail (c : Char) (s rest : List Char) (h : s <:+: rest) : s <:+: c :: rest :=
  List.infix_cons_iff.mpr (Or.inr h)

theorem infix_of_mem_splitSlash : ∀ (l : List Char) (s : List Char),
    s ∈ splitSlash l → s <:+: l := by
  intro l
  induction l with
  | nil =>
    intro s h
    simp [splitSlash] at h
    simp [h]
  | cons c rest ih =>
    intro s h
    rw [splitSlash] at h
    cases hs : splitSlash rest with
    | nil =>
      rw [hs] at h
      simp at h
      simp [h]
    | cons s' ss' =>
      rw [hs] at h
      by_cases hc : c = '/'
      · simp [hc] at h
        rcases h with h | h | h
        · simp [h]
        · subst h
          exact infix_of_infix_tail c s rest (ih s (by simp [hs]))
        · exact infix_of_infix_tail c s rest (ih s (by simp [hs, h]))
      · simp [hc] at h
        rcases h with h | h
        · subst h
          exact (prefix_cons_cons c s' rest (prefix_of_splitSlash_head rest s' ss' hs)).isInfix
        · exact infix_of_infix_tail c s rest (ih s (by simp [hs, h]))

theorem infix_of_mem_segsOf (l : List Char) (s : List Char) (h : s ∈ segsOf l) : s <:+: l :=
  infix_of_mem_splitSlash l s (List.mem_of_mem_filter h)

/-- Claim C4: every path containing a `..` segment (a whole path segment
equal to `..`) is rejected by `HasAPIPathPrefix` for every API path: such a
path contains `".."` as a substring, which the function rejects outright. -/
theorem hasAPIPathPrefix_false_of_dotdot_segment (p apiPath : List Char)
    (h : dotdotSeg ∈ segsOf p) : hasAPIPathPrefix p apiPath = false := by
  have hin : containsSubstr p dotdotSeg = true :=
    (containsSubstr_iff dotdotSeg p).mpr (infix_of_mem_segsOf p dotdotSeg h)
  simp [hasAPIPathPrefix, hin]

/-- Witness for C4 at the concrete traversal path from the repository's
tests. -/
theorem hasAPIPathPrefix_false_of_dotdot_segment_witness :
    dotdotSeg ∈ segsOf "/_db/../_api/document".data ∧
      hasAPIPathPrefix "/_db/../_api/document".data "/_api/document".data = false :=
  ⟨by decide, hasAPIPathPrefix_false_of_dotdot_segment _ _ (by decide)⟩

theorem bodyReaderStep_ok_state (body : Option BodyStream) (limit : Int)
    (data : List Char) (st1 : PeekState)
    (h : bodyReaderStep body limit ⟨false, []⟩ = (.ok data, st1)) :
    st1 = ⟨true, data⟩ := by
  unfold bodyReaderStep at h
  simp at h
  cases body with
  | none =>
    simp at h
    obtain ⟨h1, h2⟩ := h
    simp [← h2, h1.symm]
  | some s =>
    simp at h
    rcases hr : readFromLimited s ((effectiveLimit limit).toNat + 1) with ⟨d, e⟩
    rw [hr] at h
    cases e with
    | none =>
      by_cases hl : d.length = (effectiveLimit limit).toNat + 1
      · simp [hl] at h
      · simp [hl] at h
        obtain ⟨h1, h2⟩ := h
        simp [← h2, h1]
    | some msg => simp at h

theorem bodyReaderStep_err_state (body : Option BodyStream) (limit : Int)
    (e : List Char) (st' : PeekState)
    (h : bodyReaderStep body limit ⟨false, []⟩ = (.err e, st')) :
    st' = ⟨true, []⟩ := by
  unfold bodyReaderStep at h
  simp at h
  cases body with
  | none => simp at h
  | some s =>
    simp at h
    rcases hr : readFromLimited s ((effectiveLimit limit).toNat + 1) with ⟨d, oe⟩
    rw [hr] at h
    cases oe with
    | none =>
      by_cases hl : d.length = (effectiveLimit limit).toNat + 1
      · simp [hl] at h
        exact h.2.symm
      · simp [hl] at h
    | some msg =>
      simp at h
      exact h.2.symm

theorem effectiveLimit_pos (limit : Int) : 0 < effectiveLimit limit := by
  unfold effectiveLimit maxBodyPeekSize
  split
  · omega
  · next h =>
    push_neg at h
    omega

/-- Claim C7: on its first call the body peeker reads at most
`effectiveLimit + 1` bytes; the effective limit is the requested limit
clamped to the 16 MiB ceiling, a nonpositive limit meaning the ceiling; a
body longer than the effective limit fails the first call with the
limit-exceeded error, and a body of exactly the effective limit succeeds,
returning all of its bytes. -/
theorem body_peeker_first_call_bounds (limit : Int) (s : BodyStream) :
    ((readFromLimited s ((effectiveLimit limit).toNat + 1)).1.length
        ≤ (effectiveLimit limit).toNat + 1)
    ∧ (limit ≤ 0 → effectiveLimit limit = maxBodyPeekSize)
    ∧ (0 < limit → limit ≤ maxBodyPeekSize → effectiveLimit limit = limit)
    ∧ (maxBodyPeekSize < limit → effectiveLimit limit = maxBodyPeekSize)
    ∧ (effectiveLimit limit < (s.bytes.length : Int) →
        bodyReaderStep (some s) limit ⟨false, []⟩
          = (.err (limitExceededMsg (effectiveLimit limit)), ⟨true, []⟩))
    ∧ (s.readErr = none → (s.bytes.length : Int) = effectiveLimit limit →
        bodyReaderStep (some s) limit ⟨false, []⟩ = (.ok s.bytes, ⟨true, s.bytes⟩)) := by
  have hpos := effectiveLimit_pos limit
  refine ⟨?_, ?_, ?_, ?_, ?_, ?_⟩
  · unfold readFromLimited
    by_cases h : (effectiveLimit limit).toNat + 1 ≤ s.bytes.length
    · simp [h]
    · simp [h]
      omega
  · intro h
    unfold effectiveLimit
    simp [h]
  · intro h1 h2
    unfold effectiveLimit
    have : ¬ (limit ≤ 0 ∨ limit > maxBodyPeekSize) := by
      push_neg
      exact ⟨by omega, h2⟩
    simp [this]
  · intro h
    unfold effectiveLimit
    simp
    intro h2
    omega
  · intro h
    have hn : (effectiveLimit limit).toNat + 1 ≤ s.bytes.length := by omega
    unfold bodyReaderStep
    simp [readFromLimited, hn, List.length_take, Nat.min_eq_left hn]
  · intro herr hlen
    have hn : ¬ ((effectiveLimit limit).toNat + 1 ≤ s.bytes.length) := by omega
    unfold bodyReaderStep
    simp [readFromLimited, hn, herr]
    omega

/-- Witness for C7: a 100-byte body peeked with limit 100 succeeds and
returns all bytes. -/
theorem body_peeker_first_call_bounds_witness :
    bodyReaderStep (some ⟨List.replicate 100 'a', none⟩) 100 ⟨false, []⟩
      = (.ok (List.replicate 100 'a'), ⟨true, List.replicate 100 'a'⟩) :=
  (body_peeker_first_call_bounds 100 ⟨List.replicate 100 'a', none⟩).2.2.2.2.2 rfl (by decide)

/-- Claim C8: a successful first peek caches exactly the bytes it returned;
every later peek call, whatever its limit and whatever the stream now
holds, returns the identical snapshot and leaves the state unchanged; and
for an allowed POST cursor request that consumed the body, the handlers
forward exactly the snapshot bytes with the content length set to the
snapshot's byte length: the read-only handler whenever the keyword check
passes (its only allowed case), the read-write handler for every peeked
snapshot, whether or not the keyword check passes. -/
theorem body_peeker_snapshot_roundtrip :
    (∀ (body : Option BodyStream) (limit : Int) (data : List Char) (st1 : PeekState)
       (body' : Option BodyStream) (limit' : Int),
      bodyReaderStep body limit ⟨false, []⟩ = (.ok data, st1) →
      bodyReaderStep body' limit' st1 = (.ok data, st1))
    ∧ (∀ (p : List Char) (body : Option BodyStream) (data : List Char) (st1 : PeekState),
        isCursorPath p = true →
        bodyReaderStep body (128 * 1024) ⟨false, []⟩ = (.ok data, st1) →
        (checkCursorBody data = none →
          serveReadOnly ⟨"POST".data, p, body⟩ = .forwardedCached data data.length)
          ∧ serveReadWrite ⟨"POST".data, p, body⟩ = .forwardedCached data data.length) := by
  constructor
  · intro body limit data st1 body' limit' h
    have hst := bodyReaderStep_ok_state body limit data st1 h
    subst hst
    unfold bodyReaderStep
    simp
  · intro p body data st1 hc hstep
    have hst := bodyReaderStep_ok_state body (128 * 1024) data st1 hstep
    subst hst
    norm_num at hstep
    constructor
    · intro hcheck
      have hro : allowReadOnly "POST".data p
          (fun lim st => bodyReaderStep body lim st) ⟨false, []⟩ = (none, ⟨true, data⟩) := by
        unfold allowReadOnly
        simp [hc, hstep, hcheck]
      unfold serveReadOnly serveWith
      simp [hro]
    · rcases hck : checkCursorBody data with _ | r
      · have hro : allowReadOnly "POST".data p
            (fun lim st => bodyReaderStep body lim st) ⟨false, []⟩ = (none, ⟨true, data⟩) := by
          unfold allowReadOnly
          simp [hc, hstep, hck]
        unfold serveReadWrite serveWith allowReadWrite
        simp [hro]
      · have hro : allowReadOnly "POST".data p
            (fun lim st => bodyReaderStep body lim st) ⟨false, []⟩ = (some r, ⟨true, data⟩) := by
          unfold allowReadOnly
          simp [hc, hstep, hck]
        unfold serveReadWrite serveWith allowReadWrite
        simp [hro, hc]

/-- Witness for C8: a cursor POST with a read-only query is forwarded by
the read-only handler with the exact peeked body and matching content
length, and a cursor POST whose body fails the keyword check (`INSERT`) is
still forwarded by the read-write handler with the exact snapshot. -/
theorem body_peeker_snapshot_roundtrip_witness :
    serveReadOnly ⟨"POST".data, "/_api/cursor".data,
        some ⟨"\x7b\"query\": \"RETURN 1\"\x7d".data, none⟩⟩
      = .forwardedCached "\x7b\"query\": \"RETURN 1\"\x7d".data 21
    ∧ serveReadWrite ⟨"POST".data, "/_api/cursor".data,
        some ⟨"\x7b\"query\": \"INSERT 1\"\x7d".data, none⟩⟩
      = .forwardedCached "\x7b\"query\": \"INSERT 1\"\x7d".data 21 :=
  ⟨(body_peeker_snapshot_roundtrip.2 "/_api/cursor".data
      (some ⟨"\x7b\"query\": \"RETURN 1\"\x7d".data, none⟩)
      "\x7b\"query\": \"RETURN 1\"\x7d".data ⟨true, "\x7b\"query\": \"RETURN 1\"\x7d".data⟩
      (by decide) (by decide)).1 (by decide),
    (body_peeker_snapshot_roundtrip.2 "/_api/cursor".data
      (some ⟨"\x7b\"query\": \"INSERT 1\"\x7d".data, none⟩)
      "\x7b\"query\": \"INSERT 1\"\x7d".data ⟨true, "\x7b\"query\": \"INSERT 1\"\x7d".data⟩
      (by decide) (by decide)).2⟩

/-- Claim C10 (implicit): the body peeker does not cache an error: a failed
first peek still marks the request consumed with an empty cache, every
later peek call then returns the empty byte slice with no error, and a
handler that proceeds past the failure (the read-write handler on a cursor
POST) forwards an empty body upstream with content length zero. -/
theorem peek_error_not_cached :
    (∀ (body : Option BodyStream) (limit : Int) (e : List Char) (st' : PeekState),
      bodyReaderStep body limit ⟨false, []⟩ = (.err e, st') → st' = ⟨true, []⟩)
    ∧ (∀ (body' : Option BodyStream) (limit' : Int) (cb : List Char),
        bodyReaderStep body' limit' ⟨true, cb⟩ = (.ok cb, ⟨true, cb⟩))
    ∧ (∀ (p : List Char) (body : Option BodyStream) (e : List Char) (st' : PeekState),
        isCursorPath p = true →
        bodyReaderStep body (128 * 1024) ⟨false, []⟩ = (.err e, st') →
        serveReadWrite ⟨"POST".data, p, body⟩ = .forwardedCached [] 0) := by
  refine ⟨bodyReaderStep_err_state, ?_, ?_⟩
  · intro body' limit' cb
    unfold bodyReaderStep
    simp
  · intro p body e st' hc hstep
    have hst := bodyReaderStep_err_state body (128 * 1024) e st' hstep
    subst hst
    have hro : allowReadOnly "POST".data p
        (fun lim st => bodyReaderStep body lim st) ⟨false, []⟩ = (some e, ⟨true, []⟩) := by
      norm_num at hstep
      unfold allowReadOnly
      simp [hc, hstep]
    unfold serveReadWrite serveWith allowReadWrite
    simp [hro, hc]

/-- Witness for C10: a failing body under the read-write handler is
forwarded as an empty cached body. -/
theorem peek_error_not_cached_witness :
    serveReadWrite ⟨"POST".data, "/_api/cursor".data, some ⟨[], some "boom".data⟩⟩
      = .forwardedCached [] 0 :=
  peek_error_not_cached.2.2 "/_api/cursor".data (some ⟨[], some "boom".data⟩)
    "boom".data ⟨true, []⟩ (by decide) (by decide)

/-- Counterexample to claim C6 as stated: a POST to the cursor endpoint
whose body peek fails with a read error is not rejected by the read-write
handler; it is forwarded upstream (with an empty cached body), so the
claim's "this holds for both the read-only and the read-write handler" is
false. -/
theorem readwrite_peek_error_not_rejected :
    bodyReaderStep (some ⟨[], some "read failure".data⟩) (128 * 1024) ⟨false, []⟩
        = (.err "read failure".data, ⟨true, []⟩)
      ∧ serveReadWrite ⟨"POST".data, "/_api/cursor".data, some ⟨[], some "read failure".data⟩⟩
        = .forwardedCached [] 0 := by
  constructor
  · decide
  · decide

/-- Claim C6 as amended: when the body peek fails during inspection of a
cursor POST, the read-only handler rejects the request with a 403 carrying
the inspection error (forwarding nothing); the read-write handler instead
allows such a request and forwards an empty cached body — none of the
uninspected bytes reach upstream in either case. -/
theorem inspection_failure_handling
    (p : List Char) (body : Option BodyStream) (e : List Char) (st' : PeekState)
    (hc : isCursorPath p = true)
    (hstep : bodyReaderStep body (128 * 1024) ⟨false, []⟩ = (.err e, st')) :
    serveReadOnly ⟨"POST".data, p, body⟩ = .rejected 403 e
      ∧ serveReadWrite ⟨"POST".data, p, body⟩ = .forwardedCached [] 0 := by
  have hst := bodyReaderStep_err_state body (128 * 1024) e st' hstep
  subst hst
  have hro : allowReadOnly "POST".data p
      (fun lim st => bodyReaderStep body lim st) ⟨false, []⟩ = (some e, ⟨true, []⟩) := by
    norm_num at hstep
    unfold allowReadOnly
    simp [hc, hstep]
  constructor
  · unfold serveReadOnly serveWith
    simp [hro]
  · unfold serveReadWrite serveWith allowReadWrite
    simp [hro, hc]

/-- Witness for the amended C6 at a concrete failing request. -/
theorem inspection_failure_handling_witness :
    serveReadOnly ⟨"POST".data, "/_api/cursor".data, some ⟨[], some "oops".data⟩⟩
      = .rejected 403 "oops".data :=
  (inspection_failure_handling "/_api/cursor".data (some ⟨[], some "oops".data⟩)
    "oops".data ⟨true, []⟩ (by decide) (by decide)).1

/-- Allow condition of the read-only policy as the specification states it:
safe methods on any path, DELETE on a cursor endpoint, or POST on a cursor
endpoint whose peeked body passes the forbidden-keyword check. -/
def readOnlyAllowSpec (method path : List Char) (firstPeek : PeekOutcome) : Prop :=
  (method = "GET".data ∨ method = "HEAD".data ∨ method = "OPTIONS".data)
  ∨ (method = "DELETE".data ∧ isCursorPath path = true)
  ∨ (method = "POST".data ∧ isCursorPath path = true ∧
      ∃ b, firstPeek = .ok b ∧ checkCursorBody b = none)

/-- Claim C1: the read-only policy allows a request exactly when the method
is GET, HEAD or OPTIONS (any path), or DELETE on a cursor endpoint, or POST
on a cursor endpoint whose body — peeked with limit 128 KiB — passes the
forbidden-keyword check; and for every (method, path) combination outside
those three patterns it denies with the reason naming the method and the
path. -/
theorem readonly_policy_allow_iff {σ : Type} (method path : List Char)
    (peek : Int → σ → PeekOutcome × σ) (st : σ) :
    ((allowReadOnly method path peek st).1 = none ↔
      readOnlyAllowSpec method path (peek (128 * 1024) st).1)
    ∧ ((¬ ((method = "GET".data ∨ method = "HEAD".data ∨ method = "OPTIONS".data)
          ∨ (method = "DELETE".data ∧ isCursorPath path = true)
          ∨ (method = "POST".data ∧ isCursorPath path = true))) →
        (allowReadOnly method path peek st).1 = some (notPermittedMsg method path)) := by
  by_cases h1 : method = "GET".data ∨ method = "HEAD".data ∨ method = "OPTIONS".data
  · constructor
    · simp [allowReadOnly, h1, readOnlyAllowSpec]
    · intro hn
      exact absurd (Or.inl h1) hn
  · by_cases h2 : method = "POST".data
    · subst h2
      by_cases h3 : isCursorPath path
      · rcases hp : peek (128 * 1024) st with ⟨out, st'⟩
        norm_num at hp
        cases out with
        | err msg =>
          constructor
          · simp [allowReadOnly, h1, h3, hp, readOnlyAllowSpec]
          · intro hn
            exact absurd (Or.inr (Or.inr ⟨rfl, h3⟩)) hn
        | ok b =>
          rcases hcb : checkCursorBody b with _ | reason
          · constructor
            · simp [allowReadOnly, h1, h3, hp, hcb, readOnlyAllowSpec]
            · intro hn
              exact absurd (Or.inr (Or.inr ⟨rfl, h3⟩)) hn
          · constructor
            · simp [allowReadOnly, h1, h3, hp, hcb, readOnlyAllowSpec]
            · intro hn
              exact absurd (Or.inr (Or.inr ⟨rfl, h3⟩)) hn
      · simp at h3
        constructor
        · simp [allowReadOnly, h1, h3, readOnlyAllowSpec]
        · intro hn
          simp [allowReadOnly, h1, h3]
    · by_cases h4 : method = "DELETE".data
      · subst h4
        by_cases h5 : isCursorPath path
        · constructor
          · simp [allowReadOnly, h1, h2, h5, readOnlyAllowSpec]
          · intro hn
            exact absurd (Or.inr (Or.inl ⟨rfl, h5⟩)) hn
        · simp at h5
          constructor
          · simp [allowReadOnly, h1, h2, h5, readOnlyAllowSpec]
          · intro hn
            simp [allowReadOnly, h1, h2, h5]
      · constructor
        · simp [allowReadOnly, h1, h2, h4, readOnlyAllowSpec]
        · intro hn
          simp [allowReadOnly, h1, h2, h4]

/-- Witness for C1: PUT on a non-cursor path is denied with the
method-and-path reason. -/
theorem readonly_policy_allow_iff_witness :
    (allowReadOnly "PUT".data "/_api/version".data (purePeek (.ok [])) ()).1
      = some (notPermittedMsg "PUT".data "/_api/version".data) :=
  (readonly_policy_allow_iff "PUT".data "/_api/version".data (purePeek (.ok [])) ()).2
    (by decide)

/-- A word occurrence at letter boundaries: `w` appears contiguously in `s`
with no `A`-`Z` letter immediately before or after it. This is exactly "a
maximal run of letters equals `w`" when `w` is a nonempty all-letter word. -/
def wordOccurs (w s : List Char) : Prop :=
  ∃ pre post, s = pre ++ w ++ post ∧
    (∀ c, pre.getLast? = some c → isAZ c = false) ∧
    (∀ c, post.head? = some c → isAZ c = false)

theorem splitNonAZ_ne_nil (l : List Char) : splitNonAZ l ≠ [] := by
  cases l with
  | nil => simp [splitNonAZ]
  | cons c rest =>
    rw [splitNonAZ]
    cases splitNonAZ rest with
    | nil => simp
    | cons s ss =>
      by_cases h : isAZ c
      · simp [h]
      · simp [h]

theorem splitNonAZ_dropWhile_nil : ∀ l : List Char, l.dropWhile isAZ = [] →
    splitNonAZ l = [l] := by
  intro l
  induction l with
  | nil => intro _; simp [splitNonAZ]
  | cons c rest ih =>
    intro h
    by_cases hc : isAZ c
    · rw [List.dropWhile_cons_of_pos hc] at h
      rw [splitNonAZ]
      rw [ih h]
      simp [hc]
    · rw [List.dropWhile_cons_of_neg (by simp [hc])] at h
      simp at h

theorem splitNonAZ_dropWhile_cons : ∀ (l d : List Char) (dd : Char),
    l.dropWhile isAZ = dd :: d →
    splitNonAZ l = l.takeWhile isAZ :: splitNonAZ d := by
  intro l
  induction l with
  | nil => intro d dd h; simp at h
  | cons c rest ih =>
    intro d dd h
    by_cases hc : isAZ c
    · rw [List.dropWhile_cons_of_pos hc] at h
      rw [splitNonAZ, ih d dd h, List.takeWhile_cons_of_pos hc]
      simp [hc]
    · rw [List.dropWhile_cons_of_neg (by simp [hc])] at h
      obtain ⟨h1, h2⟩ := List.cons.inj h
      subst h1
      subst h2
      rw [splitNonAZ, List.takeWhile_cons_of_neg (by simp [hc])]
      rcases hs : splitNonAZ rest with _ | ⟨s, ss⟩
      · exact absurd hs (splitNonAZ_ne_nil rest)
      · simp [hc, ← hs]

theorem fieldsAZ_dropWhile_nil (l : List Char) (h : l.dropWhile isAZ = []) :
    fieldsAZ l = if l.isEmpty then [] else [l] := by
  unfold fieldsAZ
  rw [splitNonAZ_dropWhile_nil l h]
  cases l with
  | nil => simp
  | cons c rest => simp [List.filter_cons]

theorem fieldsAZ_dropWhile_cons (l d : List Char) (dd : Char)
    (h : l.dropWhile isAZ = dd :: d) :
    fieldsAZ l = (if (l.takeWhile isAZ).isEmpty then [] else [l.takeWhile isAZ])
      ++ fieldsAZ d := by
  unfold fieldsAZ
  rw [splitNonAZ_dropWhile_cons l d dd h, List.filter_cons]
  rcases htw : l.takeWhile isAZ with _ | ⟨t, ts⟩
  · simp
  · simp

theorem takeWhile_append_all (p : Char → Bool) (xs ys : List Char)
    (hx : ∀ c ∈ xs, p c = true)
    (hy : ∀ c, ys.head? = some c → p c = false) :
    (xs ++ ys).takeWhile p = xs := by
  induction xs with
  | nil =>
    simp only [List.nil_append]
    cases ys with
    | nil => simp
    | cons y ys' =>
      rw [List.takeWhile_cons_of_neg (by simp [hy y rfl])]
  | cons x xs' ih =>
    rw [List.cons_append, List.takeWhile_cons_of_pos (hx x (by simp))]
    rw [ih (fun c hc => hx c (by simp [hc]))]

theorem dropWhile_append_all (p : Char → Bool) (xs ys : List Char)
    (hx : ∀ c ∈ xs, p c = true)
    (hy : ∀ c, ys.head? = some c → p c = false) :
    (xs ++ ys).dropWhile p = ys := by
  induction xs with
  | nil =>
    simp only [List.nil_append]
    cases ys with
    | nil => simp
    | cons y ys' =>
      rw [List.dropWhile_cons_of_neg (by simp [hy y rfl])]
  | cons x xs' ih =>
    rw [List.cons_append, List.dropWhile_cons_of_pos (hx x (by simp))]
    exact ih (fun c hc => hx c (by simp [hc]))

theorem getLast_cons_tail (c : Char) (l : List Char) (h : l ≠ []) :
    (c :: l).getLast? = l.getLast? := by
  have : c :: l = [c] ++ l := by simp
  rw [this, List.getLast?_append]
  cases hl : l.getLast? with
  | none =>
    rcases l with _ | ⟨x, xs⟩
    · exact absurd rfl h
    · simp [List.getLast?_eq_getLast (x :: xs) (by simp)] at hl
  | some x => simp

theorem wordOccurs_head (tw : List Char) (d : Char) (ds : List Char)
    (_htw : tw ≠ []) (hd : isAZ d = false) :
    wordOccurs tw (tw ++ d :: ds) := by
  refine ⟨[], d :: ds, by simp, by simp, ?_⟩
  intro c hc
  simp at hc
  exact hc ▸ hd

theorem wordOccurs_lift (w tw : List Char) (d : Char) (ds : List Char)
    (hd : isAZ d = false) (h : wordOccurs w ds) :
    wordOccurs w (tw ++ d :: ds) := by
  obtain ⟨a, b, heq, hA, hB⟩ := h
  refine ⟨tw ++ d :: a, b, by simp [heq], ?_, hB⟩
  intro c hc
  rcases ha : a with _ | ⟨x, xs⟩
  · subst ha
    have : (tw ++ [d]).getLast? = some d := by
      rw [List.getLast?_append]
      simp
    rw [this] at hc
    simp at hc
    exact hc ▸ hd
  · subst ha
    rw [List.getLast?_append] at hc
    have hlast : (d :: x :: xs).getLast? = (x :: xs).getLast? :=
      getLast_cons_tail d (x :: xs) (by simp)
    rw [hlast] at hc
    rcases hgl : (x :: xs).getLast? with _ | g
    · simp [List.getLast?_eq_getLast (x :: xs) (by simp)] at hgl
    · rw [hgl] at hc
      simp at hc
      exact hc ▸ hA g hgl

theorem occSplit : ∀ (pre tw w post : List Char) (d : Char) (ds : List Char),
    pre ++ w ++ post = tw ++ d :: ds →
    w ≠ [] → (∀ c ∈ w, isAZ c = true) →
    (∀ c ∈ tw, isAZ c = true) → isAZ d = false →
    (∀ c, pre.getLast? = some c → isAZ c = false) →
    (∀ c, post.head? = some c → isAZ c = false) →
    (pre = [] ∧ w = tw ∧ post = d :: ds) ∨ wordOccurs w ds := by
  intro pre
  induction pre with
  | nil =>
    intro tw w post d ds heq hw hwAZ htwAZ hd _ hpost
    rcases w with _ | ⟨w0, w1⟩
    · exact absurd rfl hw
    · rcases tw with _ | ⟨a, tw'⟩
      · simp at heq
        have : isAZ w0 = true := hwAZ w0 (by simp)
        rw [heq.1] at this
        rw [this] at hd
        exact absurd hd (by simp)
      · simp at heq
        obtain ⟨h0, hrest⟩ := heq
        have htk1 : (w1 ++ post).takeWhile isAZ = w1 :=
          takeWhile_append_all isAZ w1 post (fun c hc => hwAZ c (by simp [hc])) hpost
        have htk2 : (tw' ++ d :: ds).takeWhile isAZ = tw' := by
          refine takeWhile_append_all isAZ tw' (d :: ds) (fun c hc => htwAZ c (by simp [hc])) ?_
          intro c hc
          simp at hc
          exact hc ▸ hd
        have hw1 : w1 = tw' := by rw [← htk1, ← htk2, hrest]
        left
        refine ⟨rfl, by simp [h0, hw1], ?_⟩
        rw [hw1] at hrest
        exact List.append_cancel_left hrest
  | cons p pre' ih =>
    intro tw w post d ds heq hw hwAZ htwAZ hd hpre hpost
    rcases tw with _ | ⟨a, tw'⟩
    · simp at heq
      obtain ⟨h0, hrest⟩ := heq
      right
      refine ⟨pre', post, by rw [List.append_assoc]; exact hrest.symm, ?_, hpost⟩
      intro c hc
      rcases hp' : pre' with _ | ⟨x, xs⟩
      · simp [hp'] at hc
      · apply hpre
        rw [getLast_cons_tail p pre' (by simp [hp'])]
        exact hc
    · simp at heq
      obtain ⟨h0, hrest⟩ := heq
      have hrest' : pre' ++ w ++ post = tw' ++ d :: ds := by
        rw [List.append_assoc]
        exact hrest
      by_cases hp' : pre' = []
      · exfalso
        have := hpre p (by simp [hp'])
        rw [h0] at this
        rw [htwAZ a (by simp)] at this
        exact absurd this (by simp)
      · have hpre'' : ∀ c, pre'.getLast? = some c → isAZ c = false := by
          intro c hc
          apply hpre
          rw [getLast_cons_tail p pre' hp']
          exact hc
        have := ih tw' w post d ds hrest' hw hwAZ
          (fun c hc => htwAZ c (by simp [hc])) hd hpre'' hpost
        rcases this with ⟨hnil, _, _⟩ | hocc
        · exact absurd hnil hp'
        · exact Or.inr hocc

theorem head?_dropWhile_false (p : Char → Bool) : ∀ (l : List Char) (c : Char),
    (l.dropWhile p).head? = some c → p c = false := by
  intro l
  induction l with
  | nil => intro c h; simp at h
  | cons x xs ih =>
    intro c h
    by_cases hx : p x
    · rw [List.dropWhile_cons_of_pos hx] at h
      exact ih c h
    · rw [List.dropWhile_cons_of_neg (by simp [hx])] at h
      simp at h
      subst h
      simpa using hx

theorem mem_fieldsAZ_iff : ∀ (n : Nat) (s : List Char), s.length ≤ n →
    ∀ w : List Char, w ≠ [] → (∀ c ∈ w, isAZ c = true) →
    (w ∈ fieldsAZ s ↔ wordOccurs w s) := by
  intro n
  induction n with
  | zero =>
    intro s hs w hw _
    have : s = [] := List.length_eq_zero.mp (Nat.le_zero.mp hs)
    subst this
    constructor
    · intro h
      simp [fieldsAZ, splitNonAZ] at h
    · rintro ⟨pre, post, heq, -, -⟩
      have h' : pre ++ w ++ post = [] := heq.symm
      simp at h'
      exact absurd h'.2.1 hw
  | succ n ih =>
    intro s hs w hw hwAZ
    rcases hdrop : s.dropWhile isAZ with _ | ⟨d, ds⟩
    · have hall : ∀ c ∈ s, isAZ c = true := List.dropWhile_eq_nil_iff.mp hdrop
      rw [fieldsAZ_dropWhile_nil s hdrop]
      by_cases hse : s = []
      · subst hse
        constructor
        · intro h
          simp at h
        · rintro ⟨pre, post, heq, -, -⟩
          have h' : pre ++ w ++ post = [] := heq.symm
          simp at h'
          exact absurd h'.2.1 hw
      · have hne : s.isEmpty = false := by
          rcases s with _ | ⟨c0, s'⟩
          · exact absurd rfl hse
          · simp
        rw [hne]
        simp only [Bool.false_eq_true, if_false, List.mem_singleton]
        constructor
        · intro h
          subst h
          exact ⟨[], [], by simp, by simp, by simp⟩
        · rintro ⟨pre, post, heq, hA, hB⟩
          have hpre : pre = [] := by
            by_contra hpe
            have hgl := List.getLast?_eq_getLast pre hpe
            have hmem : pre.getLast hpe ∈ pre := List.getLast_mem hpe
            have hmems : pre.getLast hpe ∈ s := by
              rw [heq]
              simp only [List.mem_append]
              exact Or.inl (Or.inl hmem)
            have h1 := hall _ hmems
            have h2 := hA _ hgl
            rw [h1] at h2
            exact absurd h2 (by simp)
          have hpost : post = [] := by
            rcases hpo : post with _ | ⟨y, ys⟩
            · rfl
            · exfalso
              have hmems : y ∈ s := by
                rw [heq, hpo]
                simp
              have h1 := hall _ hmems
              have h2 := hB y (by rw [hpo]; rfl)
              rw [h1] at h2
              exact absurd h2 (by simp)
          rw [hpre, hpost] at heq
          simp at heq
          exact heq.symm
    · have hs_eq : s = s.takeWhile isAZ ++ d :: ds := by
        conv_lhs => rw [← List.takeWhile_append_dropWhile isAZ s]
        rw [hdrop]
      have htwAZ : ∀ c ∈ s.takeWhile isAZ, isAZ c = true := fun c hc =>
        List.mem_takeWhile_imp hc
      have hdAZ : isAZ d = false :=
        head?_dropWhile_false isAZ s d (by rw [hdrop]; rfl)
      have hlen : ds.length ≤ n := by
        have h1 : (s.dropWhile isAZ).length ≤ s.length :=
          (List.dropWhile_suffix isAZ).length_le
        rw [hdrop] at h1
        simp at h1
        omega
      rw [fieldsAZ_dropWhile_cons s ds d hdrop]
      obtain ⟨tw, htw⟩ : ∃ tw, s.takeWhile isAZ = tw := ⟨_, rfl⟩
      rw [htw] at hs_eq htwAZ ⊢
      have hmem : (w ∈ (if tw.isEmpty then [] else [tw]) ++ fieldsAZ ds)
          ↔ ((tw ≠ [] ∧ w = tw) ∨ w ∈ fieldsAZ ds) := by
        rcases tw with _ | ⟨t, ts⟩
        · simp
        · simp
      rw [hmem]
      constructor
      · rintro (⟨htne, hweq⟩ | h)
        · rw [hs_eq, hweq]
          exact wordOccurs_head tw d ds htne hdAZ
        · rw [hs_eq]
          exact wordOccurs_lift w tw d ds hdAZ ((ih ds hlen w hw hwAZ).mp h)
      · intro hocc
        rw [hs_eq] at hocc
        obtain ⟨pre, post, heq, hA, hB⟩ := hocc
        rcases occSplit pre tw w post d ds heq.symm hw hwAZ htwAZ hdAZ hA hB with
          ⟨-, hwtw, -⟩ | h
        · exact Or.inl ⟨hwtw ▸ hw, hwtw⟩
        · exact Or.inr ((ih ds hlen w hw hwAZ).mpr h)

theorem keywords_nonempty_AZ : ∀ kw ∈ forbiddenAQLKeywords,
    kw ≠ [] ∧ ∀ c ∈ kw, isAZ c = true := by
  decide

theorem exists_token_iff (q : List Char) :
    (∃ t ∈ fieldsAZ q, t ∈ forbiddenAQLKeywords)
      ↔ ∃ kw ∈ forbiddenAQLKeywords, wordOccurs kw q := by
  constructor
  · rintro ⟨t, ht, hk⟩
    obtain ⟨hne, hAZ⟩ := keywords_nonempty_AZ t hk
    exact ⟨t, hk, (mem_fieldsAZ_iff q.length q le_rfl t hne hAZ).mp ht⟩
  · rintro ⟨kw, hk, hocc⟩
    obtain ⟨hne, hAZ⟩ := keywords_nonempty_AZ kw hk
    exact ⟨kw, (mem_fieldsAZ_iff q.length q le_rfl kw hne hAZ).mpr hocc, hk⟩

/-- Claim C5: with a parsed nonempty `query`, the check denies exactly when
some forbidden keyword occurs in the uppercased query as a whole token (a
maximal `[A-Z]+` run) — keyword substrings inside identifiers do not
trigger, and the decision only sees the uppercased text, so case-variant
spellings behave identically; when parsing fails or yields no usable query,
it denies exactly when some forbidden keyword occurs as a substring of the
uppercased raw body; and every denial's reason contains the detected
keyword. -/
theorem cursor_body_check_characterization (body : List Char) :
    (∀ q, unmarshalQuery body = some q → q ≠ [] →
      ((checkCursorBody body = none) ↔
        ¬ ∃ kw ∈ forbiddenAQLKeywords, wordOccurs kw (q.map toUpperChar)))
    ∧ ((unmarshalQuery body = none ∨ unmarshalQuery body = some []) →
      ((checkCursorBody body = none) ↔
        ¬ ∃ kw ∈ forbiddenAQLKeywords, kw <:+: (body.map toUpperChar)))
    ∧ (∀ r, checkCursorBody body = some r →
        ∃ kw ∈ forbiddenAQLKeywords, kw <:+: r) := by
  refine ⟨?_, ?_, ?_⟩
  · intro q hq hqne
    have hne : q.isEmpty = false := by
      rcases q with _ | ⟨c, q'⟩
      · exact absurd rfl hqne
      · simp
    rcases hf : (fieldsAZ (q.map toUpperChar)).find?
        (fun t => decide (t ∈ forbiddenAQLKeywords)) with _ | t
    · have hcb : checkCursorBody body = none := by
        simp [checkCursorBody, hq, hne, hf]
      rw [hcb]
      constructor
      · intro _
        rw [List.find?_eq_none] at hf
        rintro ⟨kw, hkw, hocc⟩
        obtain ⟨hkne, hkAZ⟩ := keywords_nonempty_AZ kw hkw
        have hmem : kw ∈ fieldsAZ (q.map toUpperChar) :=
          (mem_fieldsAZ_iff (q.map toUpperChar).length _ le_rfl kw hkne hkAZ).mpr hocc
        have hcontra := hf kw hmem
        simp at hcontra
        exact hcontra hkw
      · intro _
        rfl
    · have hcb : checkCursorBody body = some (aqlKeywordMsg t) := by
        simp [checkCursorBody, hq, hne, hf]
      rw [hcb]
      constructor
      · intro h
        exact absurd h (by simp)
      · intro hno
        exfalso
        apply hno
        have hmem := List.mem_of_find?_eq_some hf
        have hp := List.find?_some hf
        exact (exists_token_iff (q.map toUpperChar)).mp ⟨t, hmem, of_decide_eq_true hp⟩
  · intro hcase
    rcases hf : forbiddenAQLKeywords.find?
        (fun kw => containsSubstr (body.map toUpperChar) kw) with _ | kw
    · have hcb : checkCursorBody body = none := by
        rcases hcase with h | h
        · simp [checkCursorBody, h, hf]
        · simp [checkCursorBody, h, hf]
      rw [hcb]
      constructor
      · intro _
        rw [List.find?_eq_none] at hf
        rintro ⟨kw, hkw, hinf⟩
        have hcontra := hf kw hkw
        rw [(containsSubstr_iff kw (body.map toUpperChar)).mpr hinf] at hcontra
        exact absurd hcontra (by simp)
      · intro _
        rfl
    · have hcb : checkCursorBody body = some (bodyKeywordMsg kw) := by
        rcases hcase with h | h
        · simp [checkCursorBody, h, hf]
        · simp [checkCursorBody, h, hf]
      rw [hcb]
      constructor
      · intro h
        exact absurd h (by simp)
      · intro hno
        exfalso
        apply hno
        exact ⟨kw, List.mem_of_find?_eq_some hf,
          (containsSubstr_iff kw (body.map toUpperChar)).mp (List.find?_some hf)⟩
  · intro r hr
    rcases hq : unmarshalQuery body with _ | q
    · rcases hf : forbiddenAQLKeywords.find?
          (fun kw => containsSubstr (body.map toUpperChar) kw) with _ | kw
      · have hcb : checkCursorBody body = none := by
          simp [checkCursorBody, hq, hf]
        rw [hcb] at hr
        exact absurd hr (by simp)
      · have hcb : checkCursorBody body = some (bodyKeywordMsg kw) := by
          simp [checkCursorBody, hq, hf]
        rw [hcb] at hr
        have hr' := Option.some.inj hr
        refine ⟨kw, List.mem_of_find?_eq_some hf, ?_⟩
        rw [← hr']
        exact ⟨"forbidden keyword \"".data, "\" detected in request body".data, rfl⟩
    · by_cases hne : q.isEmpty
      · rcases hf : forbiddenAQLKeywords.find?
            (fun kw => containsSubstr (body.map toUpperChar) kw) with _ | kw
        · have hcb : checkCursorBody body = none := by
            simp [checkCursorBody, hq, hne, hf]
          rw [hcb] at hr
          exact absurd hr (by simp)
        · have hcb : checkCursorBody body = some (bodyKeywordMsg kw) := by
            simp [checkCursorBody, hq, hne, hf]
          rw [hcb] at hr
          have hr' := Option.some.inj hr
          refine ⟨kw, List.mem_of_find?_eq_some hf, ?_⟩
          rw [← hr']
          exact ⟨"forbidden keyword \"".data, "\" detected in request body".data, rfl⟩
      · rw [Bool.not_eq_true] at hne
        rcases hf : (fieldsAZ (q.map toUpperChar)).find?
            (fun t => decide (t ∈ forbiddenAQLKeywords)) with _ | t
        · have hcb : checkCursorBody body = none := by
            simp [checkCursorBody, hq, hne, hf]
          rw [hcb] at hr
          exact absurd hr (by simp)
        · have hcb : checkCursorBody body = some (aqlKeywordMsg t) := by
            simp [checkCursorBody, hq, hne, hf]
          rw [hcb] at hr
          have hr' := Option.some.inj hr
          have hp := List.find?_some hf
          refine ⟨t, of_decide_eq_true hp, ?_⟩
          rw [← hr']
          exact ⟨"forbidden keyword \"".data, "\" detected in AQL".data, rfl⟩

/-- Witness for C5: the spec's `updatedAt` example — the identifier contains
`UPDATE` as a substring, yet no forbidden keyword occurs as a whole token of
the uppercased query. -/
theorem cursor_body_check_characterization_witness :
    ¬ ∃ kw ∈ forbiddenAQLKeywords,
      wordOccurs kw ("FOR doc IN collection RETURN doc.updatedAt".data.map toUpperChar) :=
  ((cursor_body_check_characterization
      "\x7b\"query\": \"FOR doc IN collection RETURN doc.updatedAt\"\x7d".data).1
    "FOR doc IN collection RETURN doc.updatedAt".data (by decide) (by decide)).mp
    (by decide)

theorem splitSlash_ne_nil : ∀ l : List Char, splitSlash l ≠ [] := by
  intro l
  cases l with
  | nil => simp [splitSlash]
  | cons c rest =>
    rw [splitSlash]
    cases splitSlash rest with
    | nil => simp
    | cons s ss =>
      by_cases h : c = '/'
      · simp [h]
      · simp [h]

theorem splitSlash_slash (l : List Char) : splitSlash ('/' :: l) = [] :: splitSlash l := by
  rw [splitSlash]
  cases hs : splitSlash l with
  | nil => exact absurd hs (splitSlash_ne_nil l)
  | cons s ss => simp

theorem splitSlash_append_nonslash : ∀ (w r h : List Char) (t : List (List Char)),
    (∀ c ∈ w, ¬ c = '/') → splitSlash r = h :: t →
    splitSlash (w ++ r) = (w ++ h) :: t := by
  intro w
  induction w with
  | nil =>
    intro r h t _ hr
    simpa using hr
  | cons c w' ih =>
    intro r h t hw hr
    have hc : ¬ c = '/' := hw c (by simp)
    rw [List.cons_append, splitSlash]
    rw [ih r h t (fun x hx => hw x (by simp [hx])) hr]
    simp [hc]

theorem segsOf_slash (l : List Char) : segsOf ('/' :: l) = segsOf l := by
  simp [segsOf, splitSlash_slash, List.filter_cons]

theorem segsOf_append_seg (w r : List Char) (hne : w ≠ []) (hw : ∀ c ∈ w, ¬ c = '/') :
    segsOf (w ++ '/' :: r) = w :: segsOf r := by
  have h1 : splitSlash ('/' :: r) = [] :: splitSlash r := splitSlash_slash r
  rcases hs : splitSlash r with _ | ⟨h, t⟩
  · exact absurd hs (splitSlash_ne_nil r)
  · have h2 : splitSlash ('/' :: r) = [] :: h :: t := by rw [h1, hs]
    have h3 : splitSlash (w ++ '/' :: r) = (w ++ []) :: h :: t :=
      splitSlash_append_nonslash w ('/' :: r) [] (h :: t) hw h2
    unfold segsOf
    rw [h3, hs]
    simp [List.filter_cons, hne]

theorem cleanStack_no_dd : ∀ (segs acc : List (List Char)) (rooted : Bool),
    dotdotSeg ∉ segs →
    cleanStack rooted acc segs
      = acc.reverse ++ segs.filter (fun s => decide (s ≠ dotSeg)) := by
  intro segs
  induction segs with
  | nil =>
    intro acc rooted _
    simp [cleanStack]
  | cons seg rest ih =>
    intro acc rooted hdd
    have hseg : seg ≠ dotdotSeg := fun h => hdd (by simp [h])
    have hrest : dotdotSeg ∉ rest := fun h => hdd (by simp [h])
    have hstep : cleanStack rooted acc (seg :: rest)
        = if seg = dotSeg then cleanStack rooted acc rest
          else cleanStack rooted (seg :: acc) rest := by
      rw [cleanStack.eq_def]
      by_cases hdot : seg = dotSeg
      · simp [hdot]
      · simp [hdot, hseg]
    rw [hstep]
    by_cases hdot : seg = dotSeg
    · rw [if_pos hdot]
      rw [ih acc rooted hrest]
      simp [List.filter_cons, hdot]
    · rw [if_neg hdot]
      rw [ih (seg :: acc) rooted hrest]
      simp [List.filter_cons, hdot]

theorem pathClean_rooted (l : List Char) :
    pathClean ('/' :: l)
      = (if (cleanStack true [] (segsOf ('/' :: l))).isEmpty then ['/']
          else '/' :: joinSlash (cleanStack true [] (segsOf ('/' :: l)))) := by
  simp [pathClean]

/-- Shape of the cleaned path for any `..`-free path under `/_admin/`: the
cleaned path still begins with `/_admin`, followed by nothing or a
slash-led remainder. -/
theorem pathClean_admin (rest : List Char)
    (hdd : containsSubstr ("/_admin/".data ++ rest) dotdotSeg = false) :
    ∃ t, pathClean ("/_admin/".data ++ rest) = "/_admin".data ++ t
      ∧ (t = [] ∨ ∃ t', t = '/' :: t') := by
  have hshape : "/_admin/".data ++ rest = '/' :: ("_admin".data ++ '/' :: rest) := rfl
  have hsegs : segsOf ("/_admin/".data ++ rest) = "_admin".data :: segsOf rest := by
    rw [hshape, segsOf_slash]
    exact segsOf_append_seg "_admin".data rest (by decide) (by decide)
  have hdd' : dotdotSeg ∉ segsOf ("/_admin/".data ++ rest) := by
    intro hmem
    have := (containsSubstr_iff dotdotSeg ("/_admin/".data ++ rest)).mpr
      (infix_of_mem_segsOf _ _ hmem)
    rw [this] at hdd
    exact absurd hdd (by simp)
  have hclean : cleanStack true [] (segsOf ("/_admin/".data ++ rest))
      = "_admin".data :: (segsOf rest).filter (fun s => decide (s ≠ dotSeg)) := by
    rw [cleanStack_no_dd _ [] true hdd', hsegs]
    simp [List.filter_cons]
    decide
  rw [hshape, pathClean_rooted, ← hshape, hclean]
  rcases hF : (segsOf rest).filter (fun s => decide (s ≠ dotSeg)) with _ | ⟨f, fs⟩
  · exact ⟨[], by simp [joinSlash], Or.inl rfl⟩
  · refine ⟨'/' :: joinSlash (f :: fs), ?_, Or.inr ⟨_, rfl⟩⟩
    simp [joinSlash]

theorem hasAPIPathPrefix_admin_false (rest w api : List Char)
    (hapi : api = "/_api/".data ++ w) :
    hasAPIPathPrefix ("/_admin/".data ++ rest) api = false := by
  by_cases hdd : containsSubstr ("/_admin/".data ++ rest) dotdotSeg
  · have hdd' : containsSubstr ('/' :: '_' :: 'a' :: 'd' :: 'm' :: 'i' :: 'n' :: '/' :: rest)
        dotdotSeg = true := hdd
    simp [hasAPIPathPrefix, hdd']
  · rw [Bool.not_eq_true] at hdd
    obtain ⟨t, hcp, -⟩ := pathClean_admin rest hdd
    have hcons : pathClean ("/_admin/".data ++ rest)
        = '/' :: '_' :: 'a' :: 'd' :: 'm' :: 'i' :: 'n' :: t := hcp
    have hapi' : api = '/' :: '_' :: 'a' :: 'p' :: 'i' :: '/' :: w := hapi
    simp only [hasAPIPathPrefix, hcons, hdd]
    simp [matchesAPIPath, hapi', stripPre, dbPrefixMatch]

theorem isCursorPath_admin_false (rest : List Char) :
    isCursorPath ("/_admin/".data ++ rest) = false := by
  have hshape : "/_admin/".data ++ rest
      = '/' :: '_' :: 'a' :: 'd' :: 'm' :: 'i' :: 'n' :: '/' :: rest := rfl
  rw [hshape]
  simp [isCursorPath, cursorTail, stripPre]

theorem allowReadOnly_put_denies {σ : Type} (p : List Char)
    (peek : Int → σ → PeekOutcome × σ) (st : σ) :
    allowReadOnly "PUT".data p peek st = (some (notPermittedMsg "PUT".data p), st) := by
  simp [allowReadOnly]

theorem allowReadOnly_patch_denies {σ : Type} (p : List Char)
    (peek : Int → σ → PeekOutcome × σ) (st : σ) :
    allowReadOnly "PATCH".data p peek st = (some (notPermittedMsg "PATCH".data p), st) := by
  simp [allowReadOnly]

theorem allowReadOnly_delete {σ : Type} (p : List Char)
    (peek : Int → σ → PeekOutcome × σ) (st : σ) :
    allowReadOnly "DELETE".data p peek st
      = if isCursorPath p then (none, st) else (some (notPermittedMsg "DELETE".data p), st) := by
  by_cases h : isCursorPath p
  · simp [allowReadOnly, h]
  · simp [allowReadOnly, h]

/-- Counterexample to claim C2 as stated: HEAD is a method other than GET,
and `/_admin/echo` is an `/_admin/*` path, yet the read-write policy allows
`HEAD /_admin/echo` (it inherits it from the read-only policy), so "denies
any method on /_admin/* except GET" is false. -/
theorem readwrite_admin_head_allowed :
    (allowReadWrite "HEAD".data ("/_admin/".data ++ "echo".data) (purePeek (.ok [])) ()).1 = none
      ∧ "HEAD".data ≠ "GET".data := by
  constructor
  · decide
  · decide

/-- Claim C2 as amended: the read-write policy allows everything the
read-only policy allows; additionally it allows POST on any cursor endpoint
unconditionally and on the four allow-listed API prefixes; PUT, PATCH and
DELETE are allowed exactly on the three mutating prefixes (not
`/_api/import`) besides read-only's DELETE-on-cursor; PUT `/_api/import` is
denied; and on `/_admin/*` paths every method other than GET, HEAD and
OPTIONS (the read-only safe methods, which are all allowed) is denied. -/
theorem readwrite_policy_characterization :
    (∀ (σ : Type) (m p : List Char) (peek : Int → σ → PeekOutcome × σ) (st st' : σ),
      allowReadOnly m p peek st = (none, st') → allowReadWrite m p peek st = (none, st'))
    ∧ (∀ (σ : Type) (p : List Char) (peek : Int → σ → PeekOutcome × σ) (st : σ),
        (isCursorPath p = true ∨ ∃ api ∈ allowedRWAPIPaths, hasAPIPathPrefix p api = true) →
        (allowReadWrite "POST".data p peek st).1 = none)
    ∧ (∀ (σ : Type) (m p : List Char) (peek : Int → σ → PeekOutcome × σ) (st : σ),
        (m = "PUT".data ∨ m = "PATCH".data ∨ m = "DELETE".data) →
        ((allowReadWrite m p peek st).1 = none ↔
          ((m = "DELETE".data ∧ isCursorPath p = true)
            ∨ ∃ api ∈ mutateAPIPaths, hasAPIPathPrefix p api = true)))
    ∧ ((allowReadWrite "PUT".data "/_api/import".data (purePeek (.ok [])) ()).1
        = some (notPermittedMsg "PUT".data "/_api/import".data))
    ∧ (∀ (σ : Type) (m rest : List Char) (peek : Int → σ → PeekOutcome × σ) (st : σ),
        ¬ (m = "GET".data ∨ m = "HEAD".data ∨ m = "OPTIONS".data) →
        (allowReadWrite m ("/_admin/".data ++ rest) peek st).1
          = some (notPermittedMsg m ("/_admin/".data ++ rest))) := by
  refine ⟨?_, ?_, ?_, by decide, ?_⟩
  · intro σ m p peek st st' h
    unfold allowReadWrite
    rw [h]
  · intro σ p peek st hallow
    unfold allowReadWrite
    rcases hro : allowReadOnly "POST".data p peek st with ⟨res, st1⟩
    cases res with
    | none => simp
    | some r =>
      simp only []
      by_cases hc : isCursorPath p
      · simp [hc]
      · rcases hallow with hcur | hex
        · exact absurd hcur (by simp [hc])
        · simp [hc, hex]
  · intro σ m p peek st hm
    rcases hm with hm | hm | hm
    · subst hm
      rw [allowReadWrite, allowReadOnly_put_denies p peek st]
      simp only [List.any_eq_true]
      by_cases hex : ∃ api ∈ mutateAPIPaths, hasAPIPathPrefix p api = true
      · rw [if_pos hex]
        exact iff_of_true rfl (Or.inr hex)
      · rw [if_neg hex]
        refine iff_of_false (by simp) ?_
        rintro (⟨hds, -⟩ | hex')
        · exact absurd hds (by decide)
        · exact hex hex'
    · subst hm
      rw [allowReadWrite, allowReadOnly_patch_denies p peek st]
      simp only [List.any_eq_true]
      by_cases hex : ∃ api ∈ mutateAPIPaths, hasAPIPathPrefix p api = true
      · rw [if_pos hex]
        exact iff_of_true rfl (Or.inr hex)
      · rw [if_neg hex]
        refine iff_of_false (by simp) ?_
        rintro (⟨hds, -⟩ | hex')
        · exact absurd hds (by decide)
        · exact hex hex'
    · subst hm
      rw [allowReadWrite, allowReadOnly_delete p peek st]
      by_cases hc : isCursorPath p
      · rw [if_pos hc]
        exact iff_of_true rfl (Or.inl ⟨rfl, hc⟩)
      · rw [if_neg hc]
        simp only [List.any_eq_true]
        by_cases hex : ∃ api ∈ mutateAPIPaths, hasAPIPathPrefix p api = true
        · rw [if_pos hex]
          exact iff_of_true rfl (Or.inr hex)
        · rw [if_neg hex]
          refine iff_of_false (by simp) ?_
          rintro (⟨-, hcur⟩ | hex')
          · exact hc hcur
          · exact hex hex'
  · intro σ m rest peek st hm
    have hcur : isCursorPath ("/_admin/".data ++ rest) = false := isCursorPath_admin_false rest
    have hpre : ∀ api ∈ allowedRWAPIPaths,
        hasAPIPathPrefix ("/_admin/".data ++ rest) api = false := by
      intro api hapi
      simp only [allowedRWAPIPaths, List.mem_cons, List.not_mem_nil, or_false] at hapi
      rcases hapi with h | h | h | h
      · exact hasAPIPathPrefix_admin_false rest "document".data api (by subst h; decide)
      · exact hasAPIPathPrefix_admin_false rest "collection".data api (by subst h; decide)
      · exact hasAPIPathPrefix_admin_false rest "index".data api (by subst h; decide)
      · exact hasAPIPathPrefix_admin_false rest "import".data api (by subst h; decide)
    obtain ⟨P, hP⟩ : ∃ P, "/_admin/".data ++ rest = P := ⟨_, rfl⟩
    rw [hP] at hcur hpre ⊢
    have hanyA : ¬ ∃ api ∈ allowedRWAPIPaths, hasAPIPathPrefix P api = true := by
      rintro ⟨api, hapi, hx⟩
      rw [hpre api hapi] at hx
      exact absurd hx (by simp)
    have hanyM : ¬ ∃ api ∈ mutateAPIPaths, hasAPIPathPrefix P api = true := by
      rintro ⟨api, hapi, hx⟩
      have hmem : api ∈ allowedRWAPIPaths := by
        simp only [mutateAPIPaths, List.mem_cons, List.not_mem_nil, or_false] at hapi
        rcases hapi with h | h | h
        · simp [allowedRWAPIPaths, h]
        · simp [allowedRWAPIPaths, h]
        · simp [allowedRWAPIPaths, h]
      rw [hpre api hmem] at hx
      exact absurd hx (by simp)
    have hro : allowReadOnly m P peek st = (some (notPermittedMsg m P), st) := by
      unfold allowReadOnly
      by_cases h2 : m = "POST".data
      · simp [hm, h2, hcur]
      · by_cases h4 : m = "DELETE".data
        · simp [hm, h2, h4, hcur]
        · simp [hm, h2, h4]
    unfold allowReadWrite
    rw [hro]
    by_cases h2 : m = "POST".data
    · subst h2
      simp [hcur, hanyA]
    · by_cases h3 : m = "PUT".data ∨ m = "PATCH".data ∨ m = "DELETE".data
      · simp [h2, h3, hanyM]
      · simp [h2, h3]

/-- Witness for the amended C2: POST on an `/_admin/*` path is denied with
the method-and-path reason. -/
theorem readwrite_policy_characterization_witness :
    (allowReadWrite "POST".data ("/_admin/".data ++ "echo".data) (purePeek (.ok [])) ()).1
      = some (notPermittedMsg "POST".data ("/_admin/".data ++ "echo".data)) :=
  readwrite_policy_characterization.2.2.2.2 Unit "POST".data "echo".data
    (purePeek (.ok [])) () (by decide)

/-- The cleaned path with the leading slash restored, exactly as computed
at the top of `HasAPIPathPrefix`. -/
def normalizePath (p : List Char) : List Char :=
  let cp := pathClean p
  if cp.head? = some '/' then cp else '/' :: cp

/-- The specification's matching condition for `hasAPIPrefix`: the raw
input is free of `".."`, and the normalized path matches at a boundary
either directly or after stripping a validated database prefix. -/
def apiPrefixSpec (p api : List Char) : Prop :=
  containsSubstr p dotdotSeg = false ∧
    (matchesAPIPath (normalizePath p) api = true ∨
      ∃ name rest, normalizePath p = "/_db/".data ++ name ++ '/' :: rest
        ∧ name ≠ [] ∧ (∀ c ∈ name, isValidDbChar c = true)
        ∧ matchesAPIPath ('/' :: rest) api = true)

theorem isValidDbChar_ne_slash (c : Char) (h : isValidDbChar c = true) : ¬ c = '/' := by
  intro heq
  subst heq
  simp [isValidDbChar] at h

theorem dbPrefixMatch_iff (cp api : List Char) :
    dbPrefixMatch cp api = true ↔
      ∃ name rest, cp = "/_db/".data ++ name ++ '/' :: rest
        ∧ name ≠ [] ∧ (∀ c ∈ name, isValidDbChar c = true)
        ∧ matchesAPIPath ('/' :: rest) api = true := by
  constructor
  · intro h
    unfold dbPrefixMatch at h
    rcases hs : stripPre "/_db/".data cp with _ | rest0
    · rw [hs] at h
      simp at h
    · rw [hs] at h
      simp only [] at h
      by_cases hcond : (rest0.takeWhile (fun c => !(c == '/'))).isEmpty
          || (rest0.dropWhile (fun c => !(c == '/'))).isEmpty
      · rw [if_pos hcond] at h
        simp at h
      · rw [if_neg hcond] at h
        simp only [Bool.or_eq_true, not_or, Bool.not_eq_true] at hcond
        obtain ⟨hname, htail⟩ := hcond
        by_cases hvalid : (rest0.takeWhile (fun c => !(c == '/'))).all isValidDbChar
        · rw [if_pos hvalid] at h
          rcases hdw : rest0.dropWhile (fun c => !(c == '/')) with _ | ⟨d0, rest⟩
          · rw [hdw] at htail
            simp at htail
          · have hd0 : d0 = '/' := by
              have := head?_dropWhile_false (fun c => !(c == '/')) rest0 d0
                (by rw [hdw]; rfl)
              simpa using this
            subst hd0
            refine ⟨rest0.takeWhile (fun c => !(c == '/')), rest, ?_, ?_, ?_, ?_⟩
            · rw [(stripPre_iff "/_db/".data cp rest0).mp hs]
              rw [← hdw]
              simp [List.takeWhile_append_dropWhile]
            · intro hn
              rw [hn] at hname
              simp at hname
            · intro c hc
              exact List.all_eq_true.mp hvalid c (by simpa using hc)
            · rw [← hdw]
              exact h
        · rw [if_neg hvalid] at h
          simp at h
  · rintro ⟨name, rest, hcp, hne, hvalid, hmatch⟩
    have hslash : ∀ c ∈ name, (fun c => !(c == '/')) c = true := by
      intro c hc
      simp [isValidDbChar_ne_slash c (hvalid c hc)]
    have hstrip : stripPre "/_db/".data cp = some (name ++ '/' :: rest) := by
      rw [stripPre_iff]
      rw [hcp, List.append_assoc]
    unfold dbPrefixMatch
    rw [hstrip]
    simp only []
    have htake : (name ++ '/' :: rest).takeWhile (fun c => !(c == '/')) = name :=
      takeWhile_append_all _ name ('/' :: rest) hslash
        (by intro c hc; simp at hc; subst hc; decide)
    have hdrop : (name ++ '/' :: rest).dropWhile (fun c => !(c == '/')) = '/' :: rest :=
      dropWhile_append_all _ name ('/' :: rest) hslash
        (by intro c hc; simp at hc; subst hc; decide)
    rw [htake, hdrop]
    have hcond : (name.isEmpty || ('/' :: rest).isEmpty) = false := by
      rcases name with _ | ⟨n0, name'⟩
      · exact absurd rfl hne
      · simp
    rw [hcond]
    simp only [Bool.false_eq_true, if_false]
    rw [if_pos (List.all_eq_true.mpr (fun c hc => hvalid c (by simpa using hc)))]
    exact hmatch

/-- Counterexample to claim C3 as stated: `/_api/document/a..b` contains no
`..` path segment, and its normalization matches `/_api/document` at a
segment boundary, yet `HasAPIPathPrefix` returns false — the code rejects
any raw input containing `".."` as a substring, not merely as a segment. -/
theorem hasAPIPathPrefix_dotdot_substring_cex :
    hasAPIPathPrefix "/_api/document/a..b".data "/_api/document".data = false
      ∧ dotdotSeg ∉ segsOf "/_api/document/a..b".data
      ∧ matchesAPIPath (normalizePath "/_api/document/a..b".data) "/_api/document".data
          = true := by
  refine ⟨by decide, by decide, by decide⟩

/-- Claim C3 as amended: `HasAPIPathPrefix` returns true exactly when the
raw input does not contain the two-character sequence `".."` anywhere (a
stronger filter than forbidding `..` segments), and the normalized path
matches `apiPath` at a boundary (equality, or followed by `'/'` or `'?'`),
directly or after stripping a validated `/_db/<name>/` prefix. -/
theorem hasAPIPathPrefix_iff_spec (p api : List Char) :
    hasAPIPathPrefix p api = true ↔ apiPrefixSpec p api := by
  unfold hasAPIPathPrefix apiPrefixSpec
  by_cases hdd : containsSubstr p dotdotSeg
  · simp [hdd]
  · rw [Bool.not_eq_true] at hdd
    rw [hdd]
    simp only [Bool.false_eq_true, if_false]
    by_cases hm : matchesAPIPath (normalizePath p) api
    · have hm' : matchesAPIPath
          (if (pathClean p).head? = some '/' then pathClean p else '/' :: pathClean p) api
            = true := hm
      simp [hm', hm]
    · rw [Bool.not_eq_true] at hm
      have hm' : matchesAPIPath
          (if (pathClean p).head? = some '/' then pathClean p else '/' :: pathClean p) api
            = false := hm
      rw [hm']
      simp only [Bool.false_eq_true, if_false, true_and]
      rw [show (if (pathClean p).head? = some '/' then pathClean p else '/' :: pathClean p)
            = normalizePath p from rfl]
      rw [dbPrefixMatch_iff (normalizePath p) api]
      rw [hm]
      simp

/-- Witness for the amended C3 at a database-prefixed path. -/
theorem hasAPIPathPrefix_iff_spec_witness :
    hasAPIPathPrefix "/_db/mydb/_api/document/coll".data "/_api/document".data = true :=
  (hasAPIPathPrefix_iff_spec "/_db/mydb/_api/document/coll".data "/_api/document".data).mpr
    ⟨by decide, Or.inr ⟨"mydb".data, "_api/document/coll".data, by decide, by decide,
      by decide, by decide⟩⟩

/-- Tail shape accepted by `cursorPathRegexp` after the optional database
prefix: `/_api/cursor`, or `/_api/cursor/` followed by one or more digits. -/
def cursorTailSpec (tail : List Char) : Prop :=
  tail = "/_api/cursor".data
    ∨ ∃ ds, ds ≠ [] ∧ (∀ c ∈ ds, isDigitChar c = true)
        ∧ tail = "/_api/cursor".data ++ '/' :: ds

/-- Full-match shape of `cursorPathRegexp`: a cursor tail, optionally
preceded by `/_db/<name>` with a nonempty name over `[A-Za-z0-9_-]`. -/
def cursorPathSpec (p : List Char) : Prop :=
  ∃ tail, cursorTailSpec tail
    ∧ (p = tail
        ∨ ∃ name, name ≠ [] ∧ (∀ c ∈ name, isValidDbChar c = true)
            ∧ p = "/_db/".data ++ name ++ tail)

theorem cursorTail_iff (l : List Char) : cursorTail l = true ↔ cursorTailSpec l := by
  constructor
  · intro h
    unfold cursorTail at h
    rcases hs : stripPre "/_api/cursor".data l with _ | rest
    · rw [hs] at h
      simp at h
    · rw [hs] at h
      have hl : l = "/_api/cursor".data ++ rest := (stripPre_iff _ l rest).mp hs
      rcases rest with _ | ⟨c, rest'⟩
      · exact Or.inl (by simpa using hl)
      · simp only [] at h
        have hc : c = '/' := by
          rcases hcb : c == '/' with - | -
          · rw [hcb] at h
            simp at h
          · exact eq_of_beq hcb
        subst hc
        simp [List.all_eq_true] at h
        exact Or.inr ⟨rest', h.1, fun x hx => h.2 x hx, hl⟩
  · intro h
    rcases h with h | ⟨ds, hne, hdig, h⟩
    · subst h
      decide
    · subst h
      unfold cursorTail
      rw [(stripPre_iff "/_api/cursor".data _ ('/' :: ds)).mpr rfl]
      simp only []
      rcases ds with _ | ⟨d0, ds'⟩
      · exact absurd rfl hne
      · simp [List.all_eq_true]
        exact ⟨hdig d0 (by simp), fun c hc => hdig c (by simp [hc])⟩

theorem cursorTailSpec_head (tail : List Char) (h : cursorTailSpec tail) :
    ∃ t', tail = '/' :: t' := by
  rcases h with h | ⟨ds, -, -, h⟩
  · exact ⟨"_api/cursor".data, by subst h; rfl⟩
  · exact ⟨"_api/cursor".data ++ '/' :: ds, by subst h; rfl⟩

theorem isCursorPath_iff_spec (p : List Char) :
    isCursorPath p = true ↔ cursorPathSpec p := by
  constructor
  · intro h
    unfold isCursorPath at h
    rcases hs : stripPre "/_db/".data p with _ | rest0
    · rw [hs] at h
      exact ⟨p, (cursorTail_iff p).mp h, Or.inl rfl⟩
    · rw [hs] at h
      simp only [Bool.and_eq_true, Bool.not_eq_true'] at h
      obtain ⟨hname, htail⟩ := h
      refine ⟨rest0.dropWhile isValidDbChar, (cursorTail_iff _).mp htail,
        Or.inr ⟨rest0.takeWhile isValidDbChar, ?_, ?_, ?_⟩⟩
      · intro hn
        rw [hn] at hname
        simp at hname
      · exact fun c hc => List.mem_takeWhile_imp hc
      · rw [(stripPre_iff "/_db/".data p rest0).mp hs]
        conv_rhs => rw [List.append_assoc, List.takeWhile_append_dropWhile]
  · rintro ⟨tail, htail, hp | ⟨name, hne, hvalid, hp⟩⟩
    · obtain ⟨t', ht'⟩ := cursorTailSpec_head tail htail
      have hnodb : stripPre "/_db/".data tail = none := by
        rcases htail with h | ⟨ds, -, -, h⟩
        · rw [h]
          decide
        · rw [h]
          rfl
      rw [hp]
      unfold isCursorPath
      rw [hnodb]
      exact (cursorTail_iff tail).mpr htail
    · rw [hp]
      obtain ⟨t', ht'⟩ := cursorTailSpec_head tail htail
      have hstrip : stripPre "/_db/".data ("/_db/".data ++ name ++ tail)
          = some (name ++ tail) := by
        rw [stripPre_iff, List.append_assoc]
      unfold isCursorPath
      rw [hstrip]
      simp only []
      have htake : (name ++ tail).takeWhile isValidDbChar = name := by
        rw [ht']
        exact takeWhile_append_all _ name ('/' :: t') hvalid
          (by intro c hc; simp at hc; subst hc; decide)
      have hdrop : (name ++ tail).dropWhile isValidDbChar = tail := by
        rw [ht']
        refine Eq.trans (dropWhile_append_all _ name ('/' :: t') hvalid
          (by intro c hc; simp at hc; subst hc; decide)) rfl
      rw [htake, hdrop]
      have hie : name.isEmpty = false := by
        rcases name with _ | ⟨n0, name'⟩
        · exact absurd rfl hne
        · simp
      rw [hie]
      simp [(cursorTail_iff tail).mpr htail]

theorem count_zero_of_all (p : Char → Bool) (l : List Char) (c0 : Char)
    (hall : ∀ c ∈ l, p c = true) (h0 : p c0 = false) : l.count c0 = 0 := by
  rw [List.count_eq_zero]
  intro hm
  rw [hall c0 hm] at h0
  exact absurd h0 (by simp)


theorem isCursorPath_invalid_name (name tail : List Char)
    (htail : cursorTailSpec tail)
    (hinv : name = [] ∨ ∃ c ∈ name, isValidDbChar c = false) :
    isCursorPath ("/_db/".data ++ name ++ tail) = false := by
  obtain ⟨t', ht'⟩ := cursorTailSpec_head tail htail
  by_contra hcp
  rw [Bool.not_eq_false] at hcp
  have hstrip : stripPre "/_db/".data ("/_db/".data ++ name ++ tail)
      = some (name ++ tail) := by
    rw [stripPre_iff, List.append_assoc]
  unfold isCursorPath at hcp
  rw [hstrip] at hcp
  simp only [Bool.and_eq_true, Bool.not_eq_true'] at hcp
  obtain ⟨hname1, htail1⟩ := hcp
  rcases hinv with hnil | ⟨bad, hbadmem, hbad⟩
  · subst hnil
    simp only [List.nil_append] at hname1
    rw [ht'] at hname1
    rw [List.takeWhile_cons_of_neg (by decide)] at hname1
    simp at hname1
  · have hdw : name.dropWhile isValidDbChar ≠ [] := by
      intro hd
      rw [List.dropWhile_eq_nil_iff] at hd
      rw [hd bad hbadmem] at hbad
      exact absurd hbad (by simp)
    rcases hdwe : name.dropWhile isValidDbChar with _ | ⟨d0, dtl⟩
    · exact hdw hdwe
    · have hd0 : isValidDbChar d0 = false :=
        head?_dropWhile_false isValidDbChar name d0 (by rw [hdwe]; rfl)
      have hsplit : name ++ tail = name.takeWhile isValidDbChar ++ ((d0 :: dtl) ++ tail) := by
        conv_lhs => rw [← List.takeWhile_append_dropWhile isValidDbChar name]
        rw [hdwe, List.append_assoc]
      have hvalidtw : ∀ c ∈ name.takeWhile isValidDbChar, isValidDbChar c = true :=
        fun c hc => List.mem_takeWhile_imp hc
      have hheadbad : ∀ c, ((d0 :: dtl) ++ tail).head? = some c → isValidDbChar c = false := by
        intro c hc
        simp at hc
        rw [← hc]
        exact hd0
      have hdrop2 : (name ++ tail).dropWhile isValidDbChar = (d0 :: dtl) ++ tail := by
        rw [hsplit]
        exact dropWhile_append_all _ _ _ hvalidtw hheadbad
      rw [hdrop2] at htail1
      have hafter := (cursorTail_iff _).mp htail1
      rcases hafter with hA | ⟨ds, hdsne, hdsdig, hA⟩
      · have hA' : d0 :: (dtl ++ tail) = '/' :: "_api/cursor".data := hA
        obtain ⟨hd0eq, hrest⟩ := List.cons.inj hA'
        rcases htail with hT | ⟨ds', hds'ne, hds'dig, hT⟩
        · rw [hT] at hrest
          have hcnt := congrArg (List.count '/') hrest
          simp [List.count_append, List.count_cons] at hcnt
        · rw [hT] at hrest
          have hds'0 : ds'.count '/' = 0 :=
            count_zero_of_all isDigitChar ds' '/' hds'dig (by decide)
          have hcnt := congrArg (List.count '/') hrest
          simp [List.count_append, List.count_cons, hds'0] at hcnt
      · have hA' : d0 :: (dtl ++ tail) = '/' :: ("_api/cursor".data ++ '/' :: ds) := hA
        obtain ⟨hd0eq, hrest⟩ := List.cons.inj hA'
        have hds0u : ds.count '_' = 0 :=
          count_zero_of_all isDigitChar ds '_' hdsdig (by decide)
        rcases htail with hT | ⟨ds', hds'ne, hds'dig, hT⟩
        · rw [hT] at hrest
          have hcntU := congrArg (List.count '_') hrest
          simp [List.count_append, List.count_cons, hds0u] at hcntU
          have hnot : '_' ∉ dtl := List.count_eq_zero.mp hcntU
          rcases dtl with _ | ⟨e, dtl'⟩
          · rw [List.nil_append] at hrest
            have hlen := congrArg List.length hrest
            simp [List.length_append] at hlen
            exact hdsne (by simpa using hlen)
          · have h1 : ((e :: dtl') ++ "/_api/cursor".data).head? = some e := rfl
            have h2 : ("_api/cursor".data ++ '/' :: ds).head? = some '_' := rfl
            rw [hrest, h2] at h1
            have he : e = '_' := (Option.some.inj h1).symm
            subst he
            exact hnot (List.mem_cons_self _ _)
        · rw [hT] at hrest
          have hds'0 : ds'.count '/' = 0 :=
            count_zero_of_all isDigitChar ds' '/' hds'dig (by decide)
          have hds0 : ds.count '/' = 0 :=
            count_zero_of_all isDigitChar ds '/' hdsdig (by decide)
          have hcnt := congrArg (List.count '/') hrest
          simp [List.count_append, List.count_cons, hds0, hds'0] at hcnt

theorem joinSlash_cons (s : List Char) (r : List (List Char)) (hr : r ≠ []) :
    joinSlash (s :: r) = s ++ '/' :: joinSlash r := by
  cases r with
  | nil => exact absurd rfl hr
  | cons a as => rfl

theorem normalizePath_clean_cons (q s : List Char) (cs : List (List Char))
    (hC : cleanStack true [] (segsOf ('/' :: q)) = s :: cs) :
    normalizePath ('/' :: q) = '/' :: joinSlash (s :: cs) := by
  have hpc : pathClean ('/' :: q) = '/' :: joinSlash (s :: cs) := by
    rw [pathClean_rooted, hC]
    simp
  unfold normalizePath
  rw [hpc]
  simp

theorem matchesAPIPath_head_mismatch (c0 : Char) (w' Z : List Char) (hc0 : ¬ c0 = '_') :
    matchesAPIPath ('/' :: (c0 :: w' ++ Z)) ("/_api/".data ++ c0 :: w') = false := by
  have hb : ('_' == c0) = false := by
    rcases hbe : '_' == c0 with - | -
    · rfl
    · exact absurd (eq_of_beq hbe).symm hc0
  have hsp : stripPre ("/_api/".data ++ c0 :: w') ('/' :: (c0 :: w' ++ Z)) = none := by
    have h2 : stripPre ("/_api/".data ++ c0 :: w') ('/' :: (c0 :: w' ++ Z))
        = if ('_' == c0) = true then stripPre ('a' :: 'p' :: 'i' :: '/' :: c0 :: w') (w' ++ Z)
          else none := rfl
    rw [h2, hb]
    simp
  unfold matchesAPIPath
  rw [hsp]

theorem dbPrefixMatch_api_tail (np J2 w : List Char)
    (hnp : np = '/' :: ("_db".data ++ '/' :: ("_api".data ++ '/' :: J2)))
    (hJ2 : ∃ Z, J2 = w ++ Z)
    (hwh : ∀ c, w.head? = some c → ¬ c = '_') (hwne : w ≠ []) :
    dbPrefixMatch np ("/_api/".data ++ w) = false := by
  subst hnp
  have hstripdb : stripPre "/_db/".data
      ('/' :: ("_db".data ++ '/' :: ("_api".data ++ '/' :: J2)))
        = some ("_api".data ++ '/' :: J2) := rfl
  unfold dbPrefixMatch
  rw [hstripdb]
  simp only []
  have htake : ("_api".data ++ '/' :: J2).takeWhile (fun c => !(c == '/')) = "_api".data :=
    takeWhile_append_all _ "_api".data ('/' :: J2) (by decide)
      (by intro c hc; simp at hc; subst hc; decide)
  have hdrop : ("_api".data ++ '/' :: J2).dropWhile (fun c => !(c == '/')) = '/' :: J2 :=
    dropWhile_append_all _ "_api".data ('/' :: J2) (by decide)
      (by intro c hc; simp at hc; subst hc; decide)
  rw [htake, hdrop]
  have hcond : ("_api".data.isEmpty || ('/' :: J2).isEmpty) = false := rfl
  rw [hcond]
  simp only [Bool.false_eq_true, if_false]
  rw [if_pos (by decide : "_api".data.all isValidDbChar = true)]
  obtain ⟨Z, hZ⟩ := hJ2
  rcases hw : w with _ | ⟨c0, w'⟩
  · exact absurd hw hwne
  · rw [hZ, hw]
    exact matchesAPIPath_head_mismatch c0 w' Z (by
      apply hwh
      rw [hw]
      rfl)

theorem dbPrefixMatch_name_invalid (np J2 name api : List Char)
    (hnp : np = '/' :: ("_db".data ++ '/' :: (name ++ '/' :: J2)))
    (hnns : ∀ c ∈ name, ¬ c = '/')
    (hne : name ≠ [])
    (hbad : ∃ c ∈ name, isValidDbChar c = false) :
    dbPrefixMatch np api = false := by
  subst hnp
  have hstripdb : stripPre "/_db/".data
      ('/' :: ("_db".data ++ '/' :: (name ++ '/' :: J2)))
        = some (name ++ '/' :: J2) := rfl
  unfold dbPrefixMatch
  rw [hstripdb]
  simp only []
  have hslash : ∀ c ∈ name, (fun c => !(c == '/')) c = true := by
    intro c hc
    simp [hnns c hc]
  have htake : (name ++ '/' :: J2).takeWhile (fun c => !(c == '/')) = name :=
    takeWhile_append_all _ name ('/' :: J2) hslash
      (by intro c hc; simp at hc; subst hc; decide)
  have hdrop : (name ++ '/' :: J2).dropWhile (fun c => !(c == '/')) = '/' :: J2 :=
    dropWhile_append_all _ name ('/' :: J2) hslash
      (by intro c hc; simp at hc; subst hc; decide)
  rw [htake, hdrop]
  have hcond : (name.isEmpty || ('/' :: J2).isEmpty) = false := by
    rcases name with _ | ⟨n0, name'⟩
    · exact absurd rfl hne
    · simp
  rw [hcond]
  simp only [Bool.false_eq_true, if_false]
  obtain ⟨bad, hmem, hbadv⟩ := hbad
  have hallf : name.all isValidDbChar = false := by
    rcases hall : name.all isValidDbChar with - | -
    · rfl
    · rw [List.all_eq_true] at hall
      rw [hall bad hmem] at hbadv
      exact absurd hbadv (by simp)
  rw [hallf]
  simp

theorem hasAPIPathPrefix_shape_false (q w y : List Char) (F : List (List Char))
    (hwne : w ≠ []) (hwh : ∀ c, w.head? = some c → ¬ c = '_')
    (hdd : containsSubstr ('/' :: q) dotdotSeg = false)
    (hclean : cleanStack true [] (segsOf ('/' :: q))
      = "_db".data :: "_api".data :: (w ++ y) :: F) :
    hasAPIPathPrefix ('/' :: q) ("/_api/".data ++ w) = false := by
  have hnp : normalizePath ('/' :: q)
      = '/' :: joinSlash ("_db".data :: "_api".data :: (w ++ y) :: F) :=
    normalizePath_clean_cons q _ _ hclean
  have hnp2 : normalizePath ('/' :: q)
      = '/' :: ("_db".data ++ '/' :: ("_api".data ++ '/' :: joinSlash ((w ++ y) :: F))) := by
    rw [hnp, joinSlash_cons "_db".data _ (by simp), joinSlash_cons "_api".data _ (by simp)]
  have hJ2 : ∃ Z, joinSlash ((w ++ y) :: F) = w ++ Z := by
    rcases F with _ | ⟨f, fs⟩
    · exact ⟨y, rfl⟩
    · refine ⟨y ++ '/' :: joinSlash (f :: fs), ?_⟩
      rw [← List.append_assoc]
      rfl
  have hm : matchesAPIPath (normalizePath ('/' :: q)) ("/_api/".data ++ w) = false := by
    rw [hnp2]
    rfl
  have hdb : dbPrefixMatch (normalizePath ('/' :: q)) ("/_api/".data ++ w) = false :=
    dbPrefixMatch_api_tail _ _ w hnp2 hJ2 hwh hwne
  unfold hasAPIPathPrefix
  rw [hdd]
  simp only [Bool.false_eq_true, if_false]
  have hm' : matchesAPIPath
      (if (pathClean ('/' :: q)).head? = some '/' then pathClean ('/' :: q)
        else '/' :: pathClean ('/' :: q)) ("/_api/".data ++ w) = false := hm
  rw [hm']
  simp only [Bool.false_eq_true, if_false]
  exact hdb

theorem hasAPIPathPrefix_shape_name_false (q w y name : List Char) (F : List (List Char))
    (hnns : ∀ c ∈ name, ¬ c = '/') (hne : name ≠ [])
    (hbad : ∃ c ∈ name, isValidDbChar c = false)
    (hdd : containsSubstr ('/' :: q) dotdotSeg = false)
    (hclean : cleanStack true [] (segsOf ('/' :: q))
      = "_db".data :: name :: "_api".data :: (w ++ y) :: F) :
    hasAPIPathPrefix ('/' :: q) ("/_api/".data ++ w) = false := by
  have hnp : normalizePath ('/' :: q)
      = '/' :: joinSlash ("_db".data :: name :: "_api".data :: (w ++ y) :: F) :=
    normalizePath_clean_cons q _ _ hclean
  have hnp2 : normalizePath ('/' :: q)
      = '/' :: ("_db".data ++ '/'
          :: (name ++ '/' :: joinSlash ("_api".data :: (w ++ y) :: F))) := by
    rw [hnp, joinSlash_cons "_db".data _ (by simp), joinSlash_cons name _ (by simp)]
  have hm : matchesAPIPath (normalizePath ('/' :: q)) ("/_api/".data ++ w) = false := by
    rw [hnp2]
    rfl
  have hdb : dbPrefixMatch (normalizePath ('/' :: q)) ("/_api/".data ++ w) = false :=
    dbPrefixMatch_name_invalid _ _ name _ hnp2 hnns hne hbad
  unfold hasAPIPathPrefix
  rw [hdd]
  simp only [Bool.false_eq_true, if_false]
  have hm' : matchesAPIPath
      (if (pathClean ('/' :: q)).head? = some '/' then pathClean ('/' :: q)
        else '/' :: pathClean ('/' :: q)) ("/_api/".data ++ w) = false := hm
  rw [hm']
  simp only [Bool.false_eq_true, if_false]
  exact hdb

theorem hasAPIPathPrefix_db_invalid_name (w name rest0 : List Char)
    (hwne : w ≠ [])
    (hwns : ∀ c ∈ w, ¬ c = '/')
    (hwh : ∀ c, w.head? = some c → ¬ c = '_' ∧ ¬ c = '.')
    (hnns : ∀ c ∈ name, ¬ c = '/')
    (hinv : name = [] ∨ ∃ c ∈ name, isValidDbChar c = false) :
    hasAPIPathPrefix ("/_db/".data ++ name ++ ("/_api/".data ++ w ++ rest0))
      ("/_api/".data ++ w) = false := by
  by_cases hdd : containsSubstr ("/_db/".data ++ name ++ ("/_api/".data ++ w ++ rest0))
      dotdotSeg = true
  · unfold hasAPIPathPrefix
    rw [if_pos hdd]
  · rw [Bool.not_eq_true] at hdd
    obtain ⟨h0, t0, hsplit0⟩ : ∃ h0 t0, splitSlash rest0 = h0 :: t0 := by
      rcases hs : splitSlash rest0 with _ | ⟨a, b⟩
      · exact absurd hs (splitSlash_ne_nil rest0)
      · exact ⟨a, b, rfl⟩
    have hXform : "/_api/".data ++ w ++ rest0
        = '/' :: ("_api".data ++ '/' :: (w ++ rest0)) := by
      rw [List.append_assoc]
      rfl
    have hwnemp : (w ++ h0).isEmpty = false := by
      rcases w with _ | ⟨c, w'⟩
      · exact absurd rfl hwne
      · rfl
    have hsegsW : segsOf (w ++ rest0) = (w ++ h0) :: t0.filter (fun s => !s.isEmpty) := by
      unfold segsOf
      rw [splitSlash_append_nonslash w rest0 h0 t0 hwns hsplit0]
      simp [List.filter_cons, hwnemp]
    have hsegsT : segsOf ("_api".data ++ '/' :: (w ++ rest0))
        = "_api".data :: (w ++ h0) :: t0.filter (fun s => !s.isEmpty) := by
      rw [segsOf_append_seg "_api".data (w ++ rest0) (by decide) (by decide), hsegsW]
    have hwdot : ¬ (w ++ h0 = dotSeg) := by
      rcases w with _ | ⟨c0, w'⟩
      · exact absurd rfl hwne
      · intro hcon
        have hc0 : c0 = '.' := (List.cons.inj hcon).1
        exact (hwh c0 rfl).2 hc0
    by_cases hnil : name = []
    · subst hnil
      rw [List.append_nil] at hdd ⊢
      have hPform2 : "/_db/".data ++ ("/_api/".data ++ w ++ rest0)
          = '/' :: ("_db".data ++ '/' :: ("/_api/".data ++ w ++ rest0)) := rfl
      rw [hPform2] at hdd ⊢
      have hsegsP : segsOf ('/' :: ("_db".data ++ '/' :: ("/_api/".data ++ w ++ rest0)))
          = "_db".data :: "_api".data :: (w ++ h0) :: t0.filter (fun s => !s.isEmpty) := by
        rw [segsOf_slash, segsOf_append_seg "_db".data _ (by decide) (by decide)]
        rw [hXform, segsOf_slash, hsegsT]
      have hdd' : dotdotSeg
          ∉ segsOf ('/' :: ("_db".data ++ '/' :: ("/_api/".data ++ w ++ rest0))) := by
        intro hmem
        have hinf := (containsSubstr_iff dotdotSeg _).mpr (infix_of_mem_segsOf _ _ hmem)
        rw [hinf] at hdd
        exact absurd hdd (by simp)
      have hclean : cleanStack true []
          (segsOf ('/' :: ("_db".data ++ '/' :: ("/_api/".data ++ w ++ rest0))))
            = "_db".data :: "_api".data :: (w ++ h0)
              :: (t0.filter (fun s => !s.isEmpty)).filter (fun s => decide (s ≠ dotSeg)) := by
        rw [cleanStack_no_dd _ [] true hdd', hsegsP]
        simp [List.filter_cons, hwdot,
          (by decide : ¬ ("_db".data = dotSeg)), (by decide : ¬ ("_api".data = dotSeg))]
      exact hasAPIPathPrefix_shape_false _ w h0 _ hwne (fun c hc => (hwh c hc).1) hdd hclean
    · by_cases hdot : name = dotSeg
      · subst hdot
        have hPform3 : "/_db/".data ++ dotSeg ++ ("/_api/".data ++ w ++ rest0)
            = '/' :: ("_db".data ++ '/' :: (dotSeg ++ ("/_api/".data ++ w ++ rest0))) := by
          rw [List.append_assoc]
          rfl
        rw [hPform3] at hdd ⊢
        have hsegsP : segsOf ('/' :: ("_db".data ++ '/'
              :: (dotSeg ++ ("/_api/".data ++ w ++ rest0))))
            = "_db".data :: dotSeg :: "_api".data :: (w ++ h0)
                :: t0.filter (fun s => !s.isEmpty) := by
          rw [segsOf_slash, segsOf_append_seg "_db".data _ (by decide) (by decide)]
          rw [hXform, segsOf_append_seg dotSeg _ (by decide) (by decide), hsegsT]
        have hdd' : dotdotSeg ∉ segsOf ('/' :: ("_db".data ++ '/'
              :: (dotSeg ++ ("/_api/".data ++ w ++ rest0)))) := by
          intro hmem
          have hinf := (containsSubstr_iff dotdotSeg _).mpr (infix_of_mem_segsOf _ _ hmem)
          rw [hinf] at hdd
          exact absurd hdd (by simp)
        have hclean : cleanStack true []
            (segsOf ('/' :: ("_db".data ++ '/' :: (dotSeg ++ ("/_api/".data ++ w ++ rest0)))))
              = "_db".data :: "_api".data :: (w ++ h0)
                :: (t0.filter (fun s => !s.isEmpty)).filter (fun s => decide (s ≠ dotSeg)) := by
          rw [cleanStack_no_dd _ [] true hdd', hsegsP]
          simp [List.filter_cons, hwdot,
            (by decide : ¬ ("_db".data = dotSeg)), (by decide : ¬ ("_api".data = dotSeg))]
        exact hasAPIPathPrefix_shape_false _ w h0 _ hwne (fun c hc => (hwh c hc).1) hdd hclean
      · have hbadex : ∃ c ∈ name, isValidDbChar c = false := by
          rcases hinv with h | h
          · exact absurd h hnil
          · exact h
        have hPform : "/_db/".data ++ name ++ ("/_api/".data ++ w ++ rest0)
            = '/' :: ("_db".data ++ '/' :: (name ++ ("/_api/".data ++ w ++ rest0))) := by
          rw [List.append_assoc]
          rfl
        rw [hPform] at hdd ⊢
        have hsegsP : segsOf ('/' :: ("_db".data ++ '/'
              :: (name ++ ("/_api/".data ++ w ++ rest0))))
            = "_db".data :: name :: "_api".data :: (w ++ h0)
                :: t0.filter (fun s => !s.isEmpty) := by
          rw [segsOf_slash, segsOf_append_seg "_db".data _ (by decide) (by decide)]
          rw [hXform, segsOf_append_seg name _ hnil hnns, hsegsT]
        have hdd' : dotdotSeg ∉ segsOf ('/' :: ("_db".data ++ '/'
              :: (name ++ ("/_api/".data ++ w ++ rest0)))) := by
          intro hmem
          have hinf := (containsSubstr_iff dotdotSeg _).mpr (infix_of_mem_segsOf _ _ hmem)
          rw [hinf] at hdd
          exact absurd hdd (by simp)
        have hclean : cleanStack true []
            (segsOf ('/' :: ("_db".data ++ '/' :: (name ++ ("/_api/".data ++ w ++ rest0)))))
              = "_db".data :: name :: "_api".data :: (w ++ h0)
                :: (t0.filter (fun s => !s.isEmpty)).filter (fun s => decide (s ≠ dotSeg)) := by
          rw [cleanStack_no_dd _ [] true hdd', hsegsP]
          simp [List.filter_cons, hwdot, hdot,
            (by decide : ¬ ("_db".data = dotSeg)), (by decide : ¬ ("_api".data = dotSeg))]
        exact hasAPIPathPrefix_shape_name_false _ w h0 name _ hnns hnil hbadex hdd hclean

/-- Counterexample to claim C9 as stated: the database name `"x/"` contains
`'/'`, a character outside `[A-Za-z0-9_-]`, yet `HasAPIPathPrefix` accepts
the path `/_db/x//_api/document` for prefix `/_api/document`: cleaning
collapses the doubled slash to `/_db/x/_api/document`, and only the
collapsed name `"x"` is validated. -/
theorem db_name_slash_accepted_cex :
    (∃ c ∈ "x/".data, isValidDbChar c = false)
      ∧ hasAPIPathPrefix ("/_db/".data ++ "x/".data ++ "/_api/document".data)
          "/_api/document".data = true :=
  ⟨⟨'/', by decide, by decide⟩, by decide⟩

/-- Claim C9 as amended: `IsCursorPath` returns true exactly on full matches
of the regex (optional `/_db/<name>/` with nonempty name over
`[A-Za-z0-9_-]`, then `/_api/cursor`, optionally `/` and digits, nothing
trailing); `IsCursorPath` rejects every path whose database name is empty or
has a character outside `[A-Za-z0-9_-]`; and `HasAPIPathPrefix` likewise
rejects such names, provided the name does not contain `'/'` (a name with a
slash can be accepted after cleaning collapses the doubled slash). -/
theorem cursor_path_and_db_name_validation :
    (∀ p, isCursorPath p = true ↔ cursorPathSpec p)
      ∧ (∀ name tail, cursorTailSpec tail →
          (name = [] ∨ ∃ c ∈ name, isValidDbChar c = false) →
          isCursorPath ("/_db/".data ++ name ++ tail) = false)
      ∧ (∀ w name rest0, w ≠ [] → (∀ c ∈ w, ¬ c = '/') →
          (∀ c, w.head? = some c → ¬ c = '_' ∧ ¬ c = '.') →
          (∀ c ∈ name, ¬ c = '/') →
          (name = [] ∨ ∃ c ∈ name, isValidDbChar c = false) →
          hasAPIPathPrefix ("/_db/".data ++ name ++ ("/_api/".data ++ w ++ rest0))
            ("/_api/".data ++ w) = false) :=
  ⟨isCursorPath_iff_spec, isCursorPath_invalid_name, hasAPIPathPrefix_db_invalid_name⟩

/-- Witness for the amended C9: a valid database-prefixed cursor path is
accepted; the invalid name `"my.db"` is rejected by both `IsCursorPath` and
`HasAPIPathPrefix`. -/
theorem cursor_path_and_db_name_validation_witness :
    isCursorPath ("/_db/".data ++ "mydb".data ++ "/_api/cursor/123".data) = true
      ∧ isCursorPath ("/_db/".data ++ "my.db".data ++ "/_api/cursor".data) = false
      ∧ hasAPIPathPrefix
          ("/_db/".data ++ "my.db".data ++ ("/_api/".data ++ "document".data ++ []))
          ("/_api/".data ++ "document".data) = false :=
  ⟨(cursor_path_and_db_name_validation.1 _).mpr
      ⟨"/_api/cursor/123".data, Or.inr ⟨"123".data, by decide, by decide, by decide⟩,
        Or.inr ⟨"mydb".data, by decide, by decide, rfl⟩⟩,
    cursor_path_and_db_name_validation.2.1 "my.db".data "/_api/cursor".data (Or.inl rfl)
      (Or.inr ⟨'.', by decide, by decide⟩),
    cursor_path_and_db_name_validation.2.2 "document".data "my.db".data []
      (by decide) (by decide) (by intro c hc; simp at hc; subst hc; decide)
      (by decide) (Or.inr ⟨'.', by decide, by decide⟩)⟩
